import Mathlib

/-
Verification of the triangle-counting core of the webGPU_triangle_counting
repository.

The development shallowly embeds the two source files:

  * src/compute.wgsl — the per-vertex triangle-counting kernel (`main`) and
    the binary-search membership helper (`is_neighbor`).  Every buffer read
    `row_ptr[i]` / `edge_list[i]` is modelled as a checked access returning
    `Option Nat`; a `none` result means the GPU code would have read out of
    bounds.  The WGSL `while`/`for` loops are translated as fuel-indexed
    structural recursions; at every call site the fuel passed is an upper
    bound on the number of iterations the source loop can perform, so fuel
    exhaustion is unreachable there.  The global `atomic<u32>` counter is
    modelled by summing the per-thread contributions (atomic adds commute,
    so the final counter value is the wrapped sum of all contributions);
    the 32-bit wraparound of the counter is applied in `counterFinal`.

  * src/main.js — `parseGraphToCSR` (the CSR Builder) and the dispatch size
    computation of `runTriangleCounting`.  An input record models one
    non-empty, non-comment line after splitting on whitespace and applying
    `parseInt` to the first two fields: each field is `Option Int`, with
    `none` standing for a field that did not parse as an integer (`NaN`).
    JavaScript `Set` objects are modelled as duplicate-free lists built with
    `insertNew` (insertion order is preserved, though it is irrelevant
    because every set is sorted before use, exactly as in the source).
-/

/-- Compressed Sparse Row graph: the two read-only storage buffers bound to
the kernel, `row_ptr` (binding 0) and `edge_list` (binding 1). -/
structure CSR where
  rowPtr : List Nat
  edgeList : List Nat
deriving DecidableEq

/-- Checked read of `row_ptr[i]`; `none` models an out-of-bounds access. -/
def readRow (g : CSR) (i : Nat) : Option Nat := g.rowPtr[i]?

/-- Checked read of `edge_list[i]`; `none` models an out-of-bounds access. -/
def readEdge (g : CSR) (i : Nat) : Option Nat := g.edgeList[i]?

/-- `let num_nodes = arrayLength(&row_ptr) - 1u;` (compute.wgsl line 44).
The host always binds a buffer of length `numNodes + 1 ≥ 1`, so the `u32`
subtraction never wraps and `Nat` subtraction is faithful. -/
def numNodes (g : CSR) : Nat := g.rowPtr.length - 1

/-- The value stored at `row_ptr[i]` (total version used for stating
invariants; on a well-formed graph index `i` is always in bounds). -/
def rp (g : CSR) (i : Nat) : Nat := g.rowPtr.getD i 0

/-- The entries `edge_list[a], edge_list[a+1], …, edge_list[b-1]`. -/
def sliceFrom (g : CSR) (a b : Nat) : List Nat := (g.edgeList.take b).drop a

/-- Node `u`'s neighbour sub-list `edge_list[row_ptr[u] .. row_ptr[u+1])`. -/
def nodeSlice (g : CSR) (u : Nat) : List Nat := sliceFrom g (rp g u) (rp g (u + 1))

/-- Edge relation recorded in the CSR structure: `b` occurs in `a`'s
neighbour sub-list. -/
def Adj (g : CSR) (a b : Nat) : Prop := b ∈ nodeSlice g a

instance (g : CSR) (a b : Nat) : Decidable (Adj g a b) :=
  inferInstanceAs (Decidable (b ∈ nodeSlice g a))

/-- The §3 invariants of a CSR Graph: `rowPtr` has `numNodes + 1` entries
(equivalently, it is non-empty) and is monotonically non-decreasing with
`rowPtr[numNodes] = edgeList.length`; every neighbour sub-list is strictly
increasing, free of self-loops, and contains only node ids below
`numNodes`; and edge membership is symmetric. -/
structure WF (g : CSR) : Prop where
  rowLen : 0 < g.rowPtr.length
  mono : List.Sorted (· ≤ ·) g.rowPtr
  lastEq : rp g (numNodes g) = g.edgeList.length
  sorted : ∀ u < numNodes g, List.Sorted (· < ·) (nodeSlice g u)
  noSelf : ∀ u < numNodes g, u ∉ nodeSlice g u
  inRange : ∀ u < numNodes g, ∀ v ∈ nodeSlice g u, v < numNodes g
  symm : ∀ u < numNodes g, ∀ v < numNodes g, Adj g u v → Adj g v u

/-- The merge-join `while` loop of compute.wgsl (lines 75–92).  `pu`/`pv`
are the cursors `ptr_u`/`ptr_v`, `endU`/`endV` the bounds `end_u`/`end_v`.
The returned number is how many times `atomicAdd(&total_triangles, 1u)`
ran.  `fuel` bounds the iteration count; every call below passes at least
`(endU - pu) + (endV - pv)`, which the loop can never exceed because each
iteration strictly advances at least one cursor. -/
def mergeLoop (g : CSR) (endU endV : Nat) : Nat → Nat → Nat → Option Nat
  | 0, pu, pv => if pu < endU ∧ pv < endV then none else some 0
  | fuel + 1, pu, pv =>
    if pu < endU ∧ pv < endV then
      match readEdge g pu, readEdge g pv with
      | some wu, some wv =>
        if wu = wv then (mergeLoop g endU endV fuel (pu + 1) (pv + 1)).map (· + 1)
        else if wu < wv then mergeLoop g endU endV fuel (pu + 1) pv
        else mergeLoop g endU endV fuel pu (pv + 1)
      | _, _ => none
    else some 0

/-- The outer `for` loop of compute.wgsl (lines 56–93), iterating the index
`i` over `[start_u, end_u)`.  For each neighbour `v = edge_list[i]` with
`v > u` it runs the merge-join starting at `i + 1` in `u`'s list and at
`row_ptr[v]` in `v`'s list, and accumulates the triangles found.  `fuel`
bounds the remaining iterations (`endU - i` at every call below). -/
def vLoop (g : CSR) (u endU : Nat) : Nat → Nat → Option Nat
  | 0, i => if i < endU then none else some 0
  | fuel + 1, i =>
    if i < endU then
      match readEdge g i with
      | some v =>
        if v ≤ u then vLoop g u endU fuel (i + 1)
        else
          match readRow g v, readRow g (v + 1) with
          | some startV, some endV =>
            match mergeLoop g endU endV (endU - (i + 1) + (endV - startV)) (i + 1) startV,
                  vLoop g u endU fuel (i + 1) with
            | some c, some rest => some (c + rest)
            | _, _ => none
          | _, _ => none
      | none => none
    else some 0

/-- One thread of `main` (compute.wgsl lines 38–94): the task for vertex
`u`.  The guard at lines 47–49 makes every out-of-range task return
without touching any buffer; `some c` means the task ran without any
out-of-bounds access and contributed `c` to the counter. -/
def taskCount (g : CSR) (u : Nat) : Option Nat :=
  if numNodes g ≤ u then some 0
  else
    match readRow g u, readRow g (u + 1) with
    | some startU, some endU => vLoop g u endU (endU - startU) startU
    | _, _ => none

/-- Sum of the contributions of threads `0, 1, …, grid - 1`.  The threads
run concurrently in any interleaving, but every write is an atomic
fetch-and-add, so the final counter value depends only on this sum. -/
def sumTasks (g : CSR) : Nat → Option Nat
  | 0 => some 0
  | n + 1 =>
    match sumTasks g n, taskCount g n with
    | some acc, some c => some (acc + c)
    | _, _ => none

/-- The value read back from the `atomic<u32>` counter after a dispatch of
`grid` threads: the exact sum of contributions reduced modulo `2^32`
(the counter is 32 bits wide and `atomicAdd` wraps silently). -/
def counterFinal (g : CSR) (grid : Nat) : Option Nat :=
  (sumTasks g grid).map (fun c => c % 4294967296)

/-- The binary-search `while` loop of `is_neighbor` (compute.wgsl lines
21–31) over the index interval `[s, e)`.  `fuel` bounds the iterations;
`e - s` always suffices because the interval shrinks every iteration. -/
def isNeighborLoop (g : CSR) (searchValue : Nat) : Nat → Nat → Nat → Option Bool
  | 0, s, e => if s < e then none else some false
  | fuel + 1, s, e =>
    if s < e then
      let mid := s + (e - s) / 2
      match readEdge g mid with
      | some val =>
        if val = searchValue then some true
        else if val < searchValue then isNeighborLoop g searchValue fuel (mid + 1) e
        else isNeighborLoop g searchValue fuel s mid
      | none => none
    else some false

/-- `is_neighbor(node, searchValue)` (compute.wgsl lines 16–33): binary
search for `searchValue` in `node`'s neighbour sub-list. -/
def isNeighbor (g : CSR) (node searchValue : Nat) : Option Bool :=
  match readRow g node, readRow g (node + 1) with
  | some s, some e => isNeighborLoop g searchValue (e - s) s e
  | _, _ => none

/-- Sorted-list intersection count: the list-level recurrence that the
index-based `mergeLoop` implements.  On strictly sorted inputs it counts
the common elements. -/
def interCount : List Nat → List Nat → Nat
  | [], _ => 0
  | _ :: _, [] => 0
  | a :: as, b :: bs =>
    if a = b then interCount as bs + 1
    else if a < b then interCount as (b :: bs)
    else interCount (a :: as) bs
termination_by x y => x.length + y.length
decreasing_by all_goals (simp [List.length_cons]; try omega)

/-- List-level restatement of the body of the task for vertex `u`: walk the
remaining part of `u`'s neighbour sub-list and, for every entry `v > u`,
intersect the tail after `v` with `v`'s full sub-list. -/
def pairSum (g : CSR) (u : Nat) : List Nat → Nat
  | [] => 0
  | v :: rest => (if v ≤ u then 0 else interCount rest (nodeSlice g v)) + pairSum g u rest

/-- All ordered pairs `(v, w)` with `v` occurring strictly before `w` in
the list. -/
def listPairs : List Nat → List (Nat × Nat)
  | [] => []
  | v :: rest => rest.map (fun w => (v, w)) ++ listPairs rest

/-- The pairs `(b, c)` completing a triangle whose least vertex is `u`:
`u < b < c` with all three edges recorded in the CSR structure. -/
def trianglePairs (g : CSR) (u : Nat) : Finset (Nat × Nat) :=
  (Finset.range (numNodes g) ×ˢ Finset.range (numNodes g)).filter
    (fun p => u < p.1 ∧ p.1 < p.2 ∧ Adj g u p.1 ∧ Adj g u p.2 ∧ Adj g p.1 p.2)

/-- The canonical representatives of the graph's triangles: one sorted
triple `a < b < c` per unordered triangle `{a, b, c}`, all three pairwise
edges present. -/
def triangleTriples (g : CSR) : Finset (Nat × Nat × Nat) :=
  (Finset.range (numNodes g) ×ˢ Finset.range (numNodes g) ×ˢ Finset.range (numNodes g)).filter
    (fun t => t.1 < t.2.1 ∧ t.2.1 < t.2.2 ∧ Adj g t.1 t.2.1 ∧ Adj g t.1 t.2.2 ∧ Adj g t.2.1 t.2.2)

/-- The exact number of triangles recorded in a CSR graph. -/
def triangleCount (g : CSR) : Nat := (triangleTriples g).card

/-- One input record: the first two whitespace-separated fields of a line,
each `parseInt` result being an integer or `none` (NaN). -/
abbrev Record := Option Int × Option Int

/-- The records whose two fields both parsed (main.js line 81 skips the
others). -/
def validRecs (recs : List Record) : List (Int × Int) :=
  recs.filterMap (fun r =>
    match r with
    | (some u, some v) => some (u, v)
    | _ => none)

/-- Adding an element to a JavaScript `Set` modelled as a duplicate-free
list. -/
def insertNew (s : List Int) (x : Int) : List Int := if x ∈ s then s else s ++ [x]

/-- The `allNodeIds` set of main.js (lines 83–84): every endpoint of every
valid record. -/
def allNodeIds (recs : List Record) : List Int :=
  (validRecs recs).foldl (fun s p => insertNew (insertNew s p.1) p.2) []

/-- Effect of one valid record on node `x`'s adjacency set (main.js lines
89–92): for `u ≠ v`, `v` is added to `u`'s set and `u` to `v`'s set;
self-loops are dropped. -/
def nbrAccum (x : Int) (s : List Int) (p : Int × Int) : List Int :=
  if p.1 = p.2 then s
  else if p.1 = x then insertNew s p.2
  else if p.2 = x then insertNew s p.1
  else s

/-- The adjacency set `adj.get(x)` after all records are processed.  The
JavaScript code keeps one `Map` of per-node sets; updates to distinct keys
commute, so projecting the fold to a single key `x` is faithful. -/
def nbrSet (recs : List Record) (x : Int) : List Int :=
  (validRecs recs).foldl (nbrAccum x) []

/-- `sortedNodeIds` (main.js line 96): all distinct external ids in
ascending numeric order; a node's internal id is its rank in this list. -/
def sortedNodeIds (recs : List Record) : List Int :=
  List.insertionSort (· ≤ ·) (allNodeIds recs)

/-- The `rowPtr` array built by the emission loop of main.js (lines
105–121): entry `i` is the running total of neighbour-list lengths before
node `i`, and the final entry is the grand total. -/
def rowOffsets : List (List Nat) → List Nat
  | [] => [0]
  | l :: ls => 0 :: (rowOffsets ls).map (fun m => l.length + m)

/-- Assemble a CSR structure from per-node neighbour lists, exactly as the
emission loop of main.js does: offsets are running length totals and
`edgeList` is the concatenation. -/
def mkCSR (lists : List (List Nat)) : CSR :=
  { rowPtr := rowOffsets lists, edgeList := lists.flatten }

/-- One node's emitted neighbour list (main.js lines 111–113): its
adjacency set sorted by external id ascending, then each neighbour
remapped through `nodeMap` — i.e. to its rank in `ids`. -/
def nbrList (recs : List Record) (ids : List Int) (x : Int) : List Nat :=
  (List.insertionSort (· ≤ ·) (nbrSet recs x)).map (fun y => ids.indexOf y)

/-- `parseGraphToCSR` (main.js lines 64–141) restricted to its pure core:
records in, CSR Graph out.  (The `adj.has(originalId)` test at line 110 is
always true for ids drawn from `allNodeIds`, and a missing key would
contribute an empty list, which `nbrSet` also yields.) -/
def buildCSR (recs : List Record) : CSR :=
  mkCSR ((sortedNodeIds recs).map (nbrList recs (sortedNodeIds recs)))

/-- Adjacency between external ids as recorded by the builder's sets. -/
def extAdj (recs : List Record) (x y : Int) : Prop := y ∈ nbrSet recs x

instance (recs : List Record) (x y : Int) : Decidable (extAdj recs x y) :=
  inferInstanceAs (Decidable (y ∈ nbrSet recs x))

/-- Sorted triples of external ids forming a triangle in the input. -/
def extTriples (recs : List Record) : Finset (Int × Int × Int) :=
  ((allNodeIds recs).toFinset ×ˢ (allNodeIds recs).toFinset ×ˢ (allNodeIds recs).toFinset).filter
    (fun t => t.1 < t.2.1 ∧ t.2.1 < t.2.2 ∧
      extAdj recs t.1 t.2.1 ∧ extAdj recs t.1 t.2.2 ∧ extAdj recs t.2.1 t.2.2)

/-- Number of triangles of the input edge set, stated over external ids. -/
def extTriangleCount (recs : List Record) : Nat := (extTriples recs).card

/-- `Math.ceil(numNodes / workgroupSize)` with `workgroupSize = 256`
(main.js lines 230–231); the float division is exact in this range. -/
def numWorkgroups (n : Nat) : Nat := (n + 255) / 256

/-- A record whose two fields both parse as integers. -/
def isValidRecord : Record → Bool
  | (some _, some _) => true
  | _ => false

/-- The whole pipeline of `runTriangleCounting`: build the CSR Graph,
dispatch `ceil(numNodes / 256)` workgroups of 256 threads, and read the
32-bit counter back. -/
def runCount (recs : List Record) : Option Nat :=
  counterFinal (buildCSR recs) (numWorkgroups (numNodes (buildCSR recs)) * 256)

/-- Neighbour lists of the graph made of disjoint triangle blocks
`{3k, 3k+1, 3k+2}`: each node is adjacent to the other two nodes of its
block.  (Test-input family used to exercise the 32-bit counter.) -/
def tripleNbrs (u : Nat) : List Nat :=
  if u % 3 = 0 then [u + 1, u + 2]
  else if u % 3 = 1 then [u - 1, u + 1]
  else [u - 2, u - 1]

/-- Per-node neighbour lists of `t` disjoint triangle blocks. -/
def tripleLists (t : Nat) : List (List Nat) := (List.range (3 * t)).map tripleNbrs

/-- A valid CSR graph with `2^32` disjoint triangles — more than the
32-bit counter can hold. -/
def bigGraph : CSR := mkCSR (tripleLists 4294967296)

/-- Single triangle input: edges (0,1), (1,2), (0,2). -/
def triRecords : List Record := [(some 0, some 1), (some 1, some 2), (some 0, some 2)]

/-- Complete graph on 4 nodes. -/
def k4Records : List Record :=
  [(some 0, some 1), (some 0, some 2), (some 0, some 3),
   (some 1, some 2), (some 1, some 3), (some 2, some 3)]

/-- Two disjoint triangles. -/
def twoTriRecords : List Record :=
  [(some 0, some 1), (some 1, some 2), (some 0, some 2),
   (some 3, some 4), (some 4, some 5), (some 3, some 5)]

/-- The triangle-free path 0-1-2-3. -/
def pathRecords : List Record := [(some 0, some 1), (some 1, some 2), (some 2, some 3)]

/-! ### Basic facts about checked reads and slices -/

theorem readRow_eq (g : CSR) {i : Nat} (h : i < g.rowPtr.length) :
    readRow g i = some (rp g i) := by
  simp [readRow, rp, List.getElem?_eq_getElem h, List.getD_eq_getElem g.rowPtr 0 h]

theorem readEdge_eq_some {g : CSR} {i : Nat} {x : Nat} (h : readEdge g i = some x) :
    i < g.edgeList.length ∧ g.edgeList.getD i 0 = x := by
  rw [readEdge] at h
  rcases List.getElem?_eq_some.mp h with ⟨hi, hx⟩
  exact ⟨hi, by rw [List.getD_eq_getElem g.edgeList 0 hi, hx]⟩

theorem sliceFrom_nil (g : CSR) {a b : Nat} (h : b ≤ a) : sliceFrom g a b = [] := by
  apply List.drop_eq_nil_of_le
  simp only [List.length_take]
  omega

theorem sliceFrom_getElem? (g : CSR) (a b k : Nat) :
    (sliceFrom g a b)[k]? = if a + k < b then g.edgeList[a + k]? else none := by
  rw [sliceFrom, List.getElem?_drop, List.getElem?_take]

theorem sliceFrom_cons (g : CSR) {a b : Nat} (hab : a < b) (hb : b ≤ g.edgeList.length) :
    ∃ x, readEdge g a = some x ∧ sliceFrom g a b = x :: sliceFrom g (a + 1) b := by
  have ha : a < g.edgeList.length := lt_of_lt_of_le hab hb
  have h1 : a < (g.edgeList.take b).length := by
    simp only [List.length_take]
    omega
  refine ⟨g.edgeList[a], ?_, ?_⟩
  · simp [readEdge, List.getElem?_eq_getElem ha]
  · rw [sliceFrom, List.drop_eq_getElem_cons h1, List.getElem_take]
    rfl

theorem mem_sliceFrom {g : CSR} {a b x : Nat} :
    x ∈ sliceFrom g a b ↔ ∃ i, a ≤ i ∧ i < b ∧ readEdge g i = some x := by
  rw [List.mem_iff_getElem?]
  constructor
  · rintro ⟨k, hk⟩
    rw [sliceFrom_getElem? g a b k] at hk
    by_cases h : a + k < b
    · rw [if_pos h] at hk
      exact ⟨a + k, by omega, h, hk⟩
    · rw [if_neg h] at hk
      exact absurd hk (by simp)
  · rintro ⟨i, hai, hib, hi⟩
    refine ⟨i - a, ?_⟩
    rw [sliceFrom_getElem? g a b (i - a), if_pos (by omega)]
    have : a + (i - a) = i := by omega
    rw [this]
    exact hi

theorem sliceFrom_drop {g : CSR} {s i b : Nat} (h : s ≤ i) :
    sliceFrom g i b = (sliceFrom g s b).drop (i - s) := by
  rw [sliceFrom, sliceFrom, List.drop_drop]
  congr 1
  omega

theorem sliceFrom_subset_of_le {g : CSR} {s i b : Nat} (h : s ≤ i) :
    ∀ x ∈ sliceFrom g i b, x ∈ sliceFrom g s b := by
  intro x hx
  rw [sliceFrom_drop h] at hx
  exact List.drop_subset _ _ hx

/-! ### The list-level intersection count -/

theorem interCount_nil_right (A : List Nat) : interCount A [] = 0 := by
  cases A <;> simp [interCount]

/-- On strictly sorted lists, the merge-join recurrence counts exactly the
elements common to both lists. -/
theorem interCount_eq_filter {A B : List Nat} (hA : List.Sorted (· < ·) A)
    (hB : List.Sorted (· < ·) B) :
    interCount A B = (A.filter (fun x => decide (x ∈ B))).length := by
  induction A, B using interCount.induct with
  | case1 B => simp [interCount]
  | case2 a as => simp [interCount_nil_right]
  | case3 as b bs ih =>
    rw [List.sorted_cons] at hA hB
    have hstep : as.filter (fun x => decide (x ∈ b :: bs)) = as.filter (fun x => decide (x ∈ bs)) := by
      apply List.filter_congr
      intro x hx
      have hax : b < x := hA.1 x hx
      simp only [decide_eq_decide, List.mem_cons]
      constructor
      · rintro (rfl | h)
        · exact absurd hax (lt_irrefl x)
        · exact h
      · exact Or.inr
    simp only [interCount, if_pos rfl, List.filter_cons]
    have hmem : decide (b ∈ b :: bs) = true := by simp
    rw [hmem, ih hA.2 hB.2, if_pos rfl, hstep]
    simp
  | case4 a as b bs hne hlt ih =>
    rw [List.sorted_cons] at hA
    have hnb : decide (a ∈ b :: bs) = false := by
      rw [List.sorted_cons] at hB
      simp only [decide_eq_false_iff_not, List.mem_cons]
      rintro (rfl | h)
      · exact hne rfl
      · exact absurd hlt (not_lt.mpr (le_of_lt (hB.1 a h)))
    rw [interCount, if_neg hne, if_pos hlt, ih hA.2 hB, List.filter_cons, hnb]
    simp
  | case5 a as b bs hne hnlt ih =>
    rw [List.sorted_cons] at hB
    have hba : b < a := by omega
    have hstep : (a :: as).filter (fun x => decide (x ∈ b :: bs)) =
        (a :: as).filter (fun x => decide (x ∈ bs)) := by
      apply List.filter_congr
      intro x hx
      have hbx : b < x := by
        rcases List.mem_cons.mp hx with rfl | h
        · exact hba
        · rw [List.sorted_cons] at hA
          exact lt_trans hba (hA.1 x h)
      simp only [decide_eq_decide, List.mem_cons]
      constructor
      · rintro (rfl | h)
        · exact absurd hbx (lt_irrefl x)
        · exact h
      · exact Or.inr
    rw [interCount, if_neg hne, if_neg hnlt, ih hA hB.2, hstep]

/-! ### Correctness of the merge-join loop -/

/-- With enough fuel and in-bounds end positions, the merge-join loop of the
kernel computes the intersection count of the two index slices, and in
particular never reads out of bounds. -/
theorem mergeLoop_eq (g : CSR) {endU endV : Nat} (hU : endU ≤ g.edgeList.length)
    (hV : endV ≤ g.edgeList.length) :
    ∀ fuel pu pv, (endU - pu) + (endV - pv) ≤ fuel →
      mergeLoop g endU endV fuel pu pv =
        some (interCount (sliceFrom g pu endU) (sliceFrom g pv endV)) := by
  intro fuel
  induction fuel with
  | zero =>
    intro pu pv hf
    have h1 : endU ≤ pu := by omega
    rw [mergeLoop, if_neg (by omega), sliceFrom_nil g h1, interCount]
  | succ fuel ih =>
    intro pu pv hf
    by_cases hlive : pu < endU ∧ pv < endV
    · obtain ⟨wu, hwu, hsu⟩ := sliceFrom_cons g hlive.1 hU
      obtain ⟨wv, hwv, hsv⟩ := sliceFrom_cons g hlive.2 hV
      rw [hsu, hsv]
      simp only [mergeLoop, if_pos hlive, hwu, hwv]
      by_cases heq : wu = wv
      · subst heq
        rw [if_pos rfl, ih (pu + 1) (pv + 1) (by omega)]
        simp [interCount]
      · by_cases hlt : wu < wv
        · rw [if_neg heq, if_pos hlt, ih (pu + 1) pv (by omega), hsv]
          simp [interCount, heq, hlt]
        · rw [if_neg heq, if_neg hlt, ih pu (pv + 1) (by omega), hsu]
          rw [interCount, if_neg heq, if_neg hlt]
    · rw [mergeLoop, if_neg hlive]
      rcases not_and_or.mp hlive with h | h
      · rw [sliceFrom_nil g (by omega), interCount]
      · rw [sliceFrom_nil g (le_of_not_lt h), interCount_nil_right]

/-! ### Row-pointer bounds on well-formed graphs -/

theorem rp_mono (g : CSR) (h : List.Sorted (· ≤ ·) g.rowPtr) {i j : Nat} (hij : i ≤ j)
    (hj : j < g.rowPtr.length) : rp g i ≤ rp g j := by
  rcases Nat.eq_or_lt_of_le hij with rfl | hlt
  · exact le_refl _
  · have hi : i < g.rowPtr.length := lt_trans hlt hj
    have := (List.pairwise_iff_get.mp h) ⟨i, hi⟩ ⟨j, hj⟩ hlt
    rw [rp, rp, List.getD_eq_getElem g.rowPtr 0 hi, List.getD_eq_getElem g.rowPtr 0 hj]
    simpa using this

theorem numNodes_lt_rowLen (g : CSR) (h : WF g) : numNodes g < g.rowPtr.length := by
  have := h.rowLen
  unfold numNodes
  omega

theorem rp_le_length (g : CSR) (h : WF g) {i : Nat} (hi : i ≤ numNodes g) :
    rp g i ≤ g.edgeList.length := by
  rw [← h.lastEq]
  exact rp_mono g h.mono hi (numNodes_lt_rowLen g h)

/-! ### Correctness of the per-vertex loop -/

/-- With enough fuel, the outer loop of the task for vertex `u < numNodes`,
started at index `i` inside `u`'s slice, computes `pairSum` of the
remaining slice entries (and performs no out-of-bounds access). -/
theorem vLoop_eq (g : CSR) (h : WF g) {u : Nat} (hu : u < numNodes g) :
    ∀ fuel i, rp g u ≤ i → rp g (u + 1) - i ≤ fuel →
      vLoop g u (rp g (u + 1)) fuel i = some (pairSum g u (sliceFrom g i (rp g (u + 1)))) := by
  have hend : rp g (u + 1) ≤ g.edgeList.length := rp_le_length g h (by omega)
  intro fuel
  induction fuel with
  | zero =>
    intro i hle hf
    rw [vLoop, if_neg (by omega), sliceFrom_nil g (by omega), pairSum]
  | succ fuel ih =>
    intro i hle hf
    by_cases hlive : i < rp g (u + 1)
    · obtain ⟨v, hv, hslice⟩ := sliceFrom_cons g hlive hend
      have hvmem : v ∈ nodeSlice g u := by
        rw [nodeSlice]
        apply sliceFrom_subset_of_le hle
        rw [hslice]
        exact List.mem_cons_self v _
      have hvn : v < numNodes g := h.inRange u hu v hvmem
      rw [hslice]
      by_cases hvu : v ≤ u
      · have hih := ih (i + 1) (by omega) (by omega)
        simp only [vLoop, if_pos hlive, hv, if_pos hvu, hih, pairSum, if_pos hvu]
        simp
      · have hv1 : v < g.rowPtr.length := lt_trans hvn (numNodes_lt_rowLen g h)
        have hv2 : v + 1 < g.rowPtr.length := by
          have := numNodes_lt_rowLen g h
          unfold numNodes at *
          omega
        have hVlen : rp g (v + 1) ≤ g.edgeList.length := rp_le_length g h (by omega)
        have hmerge := mergeLoop_eq g hend hVlen
          (rp g (u + 1) - (i + 1) + (rp g (v + 1) - rp g v)) (i + 1) (rp g v) (le_refl _)
        have hih := ih (i + 1) (by omega) (by omega)
        simp only [vLoop, if_pos hlive, hv, if_neg hvu, readRow_eq g hv1, readRow_eq g hv2,
          hmerge, hih, pairSum, nodeSlice]
    · rw [vLoop, if_neg hlive, sliceFrom_nil g (by omega), pairSum]

/-- The task for an in-range vertex `u` never reads out of bounds and
contributes exactly `pairSum` over `u`'s full neighbour sub-list. -/
theorem taskCount_eq_pairSum (g : CSR) (h : WF g) {u : Nat} (hu : u < numNodes g) :
    taskCount g u = some (pairSum g u (nodeSlice g u)) := by
  have hu1 : u < g.rowPtr.length := lt_trans hu (numNodes_lt_rowLen g h)
  have hu2 : u + 1 < g.rowPtr.length := by
    have := numNodes_lt_rowLen g h
    unfold numNodes at *
    omega
  rw [taskCount, if_neg (by omega)]
  simp only [readRow_eq g hu1, readRow_eq g hu2]
  exact vLoop_eq g h hu _ (rp g u) (le_refl _) (le_refl _)

/-- Out-of-range tasks (the guard at compute.wgsl lines 47–49) return
immediately: no buffer is read and nothing is added to the counter. -/
theorem taskCount_oob (g : CSR) {u : Nat} (hu : numNodes g ≤ u) : taskCount g u = some 0 := by
  rw [taskCount, if_pos hu]

/-! ### From the scanned pair sum to triangle sets -/

theorem pairSum_eq_filter (g : CSR) (u : Nat) :
    ∀ L : List Nat, List.Sorted (· < ·) L →
      (∀ v ∈ L, List.Sorted (· < ·) (nodeSlice g v)) →
      pairSum g u L =
        ((listPairs L).filter
          (fun p => decide (u < p.1) && decide (p.2 ∈ nodeSlice g p.1))).length := by
  intro L
  induction L with
  | nil => intro _ _; rfl
  | cons v rest ih =>
    intro hs hsl
    rw [List.sorted_cons] at hs
    rw [pairSum, listPairs, List.filter_append, List.length_append,
      ih hs.2 (fun w hw => hsl w (List.mem_cons_of_mem v hw)), List.filter_map]
    congr 1
    by_cases hvu : v ≤ u
    · rw [if_pos hvu]
      have hfilter : List.filter
          ((fun p => decide (u < p.1) && decide (p.2 ∈ nodeSlice g p.1)) ∘ fun w => (v, w))
          rest = [] := by
        apply List.filter_eq_nil_iff.mpr
        intro w hw
        simp [not_lt.mpr hvu]
      rw [hfilter]
      rfl
    · have huv : u < v := not_le.mp hvu
      rw [if_neg hvu, List.length_map]
      have hconv : List.filter
          ((fun p => decide (u < p.1) && decide (p.2 ∈ nodeSlice g p.1)) ∘ fun w => (v, w))
          rest = List.filter (fun x => decide (x ∈ nodeSlice g v)) rest := by
        apply List.filter_congr
        intro w hw
        simp [huv]
      rw [hconv, interCount_eq_filter hs.2 (hsl v (List.mem_cons_self v rest))]

theorem listPairs_mem_of_mem {L : List Nat} {p : Nat × Nat} (hp : p ∈ listPairs L) :
    p.1 ∈ L ∧ p.2 ∈ L := by
  induction L with
  | nil => simp [listPairs] at hp
  | cons v rest ih =>
    rw [listPairs, List.mem_append] at hp
    rcases hp with h | h
    · rcases List.mem_map.mp h with ⟨w, hw, rfl⟩
      exact ⟨List.mem_cons_self _ _, List.mem_cons_of_mem _ hw⟩
    · rcases ih h with ⟨h1, h2⟩
      exact ⟨List.mem_cons_of_mem _ h1, List.mem_cons_of_mem _ h2⟩

theorem mem_listPairs {L : List Nat} (hL : List.Sorted (· < ·) L) {a b : Nat} :
    (a, b) ∈ listPairs L ↔ a ∈ L ∧ b ∈ L ∧ a < b := by
  induction L with
  | nil => simp [listPairs]
  | cons v rest ih =>
    rw [List.sorted_cons] at hL
    rw [listPairs, List.mem_append]
    constructor
    · rintro (h | h)
      · rcases List.mem_map.mp h with ⟨w, hw, hweq⟩
        rw [Prod.mk.injEq] at hweq
        obtain ⟨rfl, rfl⟩ := hweq
        exact ⟨List.mem_cons_self _ _, List.mem_cons_of_mem _ hw, hL.1 _ hw⟩
      · rcases (ih hL.2).mp h with ⟨h1, h2, h3⟩
        exact ⟨List.mem_cons_of_mem _ h1, List.mem_cons_of_mem _ h2, h3⟩
    · rintro ⟨h1, h2, h3⟩
      rcases List.mem_cons.mp h1 with heq1 | h1'
      · rcases List.mem_cons.mp h2 with heq2 | h2'
        · exact absurd h3 (by omega)
        · refine Or.inl (List.mem_map.mpr ⟨b, h2', ?_⟩)
          rw [heq1]
      · rcases List.mem_cons.mp h2 with heq2 | h2'
        · have hva := hL.1 a h1'
          exact absurd h3 (by omega)
        · exact Or.inr ((ih hL.2).mpr ⟨h1', h2', h3⟩)

theorem listPairs_nodup {L : List Nat} (hL : List.Sorted (· < ·) L) :
    (listPairs L).Nodup := by
  induction L with
  | nil => simp [listPairs]
  | cons v rest ih =>
    rw [List.sorted_cons] at hL
    rw [listPairs]
    apply List.Nodup.append
    · apply List.Nodup.map
      · intro w₁ w₂ hw
        rw [Prod.mk.injEq] at hw
        exact hw.2
      · exact hL.2.nodup
    · exact ih hL.2
    · intro p hp hp'
      rcases List.mem_map.mp hp with ⟨w, hw, rfl⟩
      have hv : v ∈ rest := (listPairs_mem_of_mem hp').1
      exact absurd (hL.1 v hv) (lt_irrefl v)

/-- For an in-range vertex `u` of a well-formed graph, the pair sum over
`u`'s slice equals the number of `(b, c)` pairs completing a triangle whose
least vertex is `u`. -/
theorem pairSum_card (g : CSR) (h : WF g) {u : Nat} (hu : u < numNodes g) :
    pairSum g u (nodeSlice g u) = (trianglePairs g u).card := by
  have hLs : List.Sorted (· < ·) (nodeSlice g u) := h.sorted u hu
  have hslices : ∀ v ∈ nodeSlice g u, List.Sorted (· < ·) (nodeSlice g v) :=
    fun v hv => h.sorted v (h.inRange u hu v hv)
  rw [pairSum_eq_filter g u (nodeSlice g u) hLs hslices]
  have hnodup : ((listPairs (nodeSlice g u)).filter
      (fun p => decide (u < p.1) && decide (p.2 ∈ nodeSlice g p.1))).Nodup :=
    (listPairs_nodup hLs).filter _
  rw [← List.toFinset_card_of_nodup hnodup]
  congr 1
  apply Finset.ext
  rintro ⟨a, b⟩
  rw [List.mem_toFinset, List.mem_filter]
  simp only [trianglePairs, Finset.mem_filter, Finset.mem_product, Finset.mem_range, Adj,
    Bool.and_eq_true, decide_eq_true_eq]
  constructor
  · rintro ⟨hmem, hcond⟩
    obtain ⟨h1, h2, h3⟩ := (mem_listPairs hLs).mp hmem
    exact ⟨⟨h.inRange u hu a h1, h.inRange u hu b h2⟩, hcond.1, h3, h1, h2, hcond.2⟩
  · rintro ⟨⟨ha, hb⟩, h1, h2, h3, h4, h5⟩
    exact ⟨(mem_listPairs hLs).mpr ⟨h3, h4, h2⟩, h1, h5⟩

theorem fiber_card (g : CSR) {u : Nat} (hu : u < numNodes g) :
    ((triangleTriples g).filter (fun t => t.1 = u)).card = (trianglePairs g u).card := by
  apply Finset.card_bij (fun t _ => t.2)
  · intro t ht
    rw [Finset.mem_filter] at ht
    obtain ⟨htr, hfst⟩ := ht
    simp only [triangleTriples, Finset.mem_filter, Finset.mem_product, Finset.mem_range] at htr
    rw [hfst] at htr
    simp only [trianglePairs, Finset.mem_filter, Finset.mem_product, Finset.mem_range]
    exact ⟨⟨htr.1.2.1, htr.1.2.2⟩, htr.2⟩
  · intro t₁ h₁ t₂ h₂ heq
    rw [Finset.mem_filter] at h₁ h₂
    exact Prod.ext_iff.mpr ⟨h₁.2.trans h₂.2.symm, heq⟩
  · intro p hp
    refine ⟨(u, p), ?_, rfl⟩
    simp only [trianglePairs, Finset.mem_filter, Finset.mem_product, Finset.mem_range] at hp
    simp only [Finset.mem_filter, triangleTriples, Finset.mem_product, Finset.mem_range]
    exact ⟨⟨⟨hu, hp.1.1, hp.1.2⟩, hp.2⟩, trivial⟩

theorem triangleCount_eq_sum (g : CSR) :
    triangleCount g = ∑ u ∈ Finset.range (numNodes g), (trianglePairs g u).card := by
  have hmem : ∀ t ∈ triangleTriples g, t.1 ∈ Finset.range (numNodes g) := by
    intro t ht
    simp only [triangleTriples, Finset.mem_filter, Finset.mem_product] at ht
    exact ht.1.1
  rw [triangleCount, Finset.card_eq_sum_card_fiberwise hmem]
  exact Finset.sum_congr rfl (fun u hu => fiber_card g (Finset.mem_range.mp hu))

/-! ### The dispatched grid of tasks -/

theorem taskCount_eq_card (g : CSR) (h : WF g) {u : Nat} (hu : u < numNodes g) :
    taskCount g u = some ((trianglePairs g u).card) := by
  rw [taskCount_eq_pairSum g h hu, pairSum_card g h hu]

theorem sumTasks_below (g : CSR) (h : WF g) :
    ∀ m, m ≤ numNodes g →
      sumTasks g m = some (∑ u ∈ Finset.range m, (trianglePairs g u).card) := by
  intro m
  induction m with
  | zero => intro _; rfl
  | succ m ih =>
    intro hm
    simp only [sumTasks, ih (by omega), taskCount_eq_card g h (show m < numNodes g by omega),
      Finset.sum_range_succ]

theorem sumTasks_extend (g : CSR) :
    ∀ grid, numNodes g ≤ grid → sumTasks g grid = sumTasks g (numNodes g) := by
  intro grid
  induction grid with
  | zero =>
    intro h0
    have hz : numNodes g = 0 := by omega
    rw [hz]
  | succ k ih =>
    intro hk
    rcases Nat.eq_or_lt_of_le hk with heq | hlt
    · rw [heq]
    · have hk' : numNodes g ≤ k := by omega
      rw [← ih hk']
      simp only [sumTasks, taskCount_oob g hk']
      cases sumTasks g k <;> simp

/-- The engine theorem for the kernel: on a well-formed graph, any dispatch
covering all vertices sums to the exact triangle count, with no task ever
reading out of bounds. -/
theorem sumTasks_eq_triangleCount (g : CSR) (h : WF g) {grid : Nat}
    (hg : numNodes g ≤ grid) : sumTasks g grid = some (triangleCount g) := by
  rw [sumTasks_extend g grid hg, sumTasks_below g h (numNodes g) (le_refl _),
    triangleCount_eq_sum]

/-! ### The builder's set model -/

theorem mem_insertNew {s : List Int} {x y : Int} :
    y ∈ insertNew s x ↔ y ∈ s ∨ y = x := by
  rw [insertNew]
  by_cases hx : x ∈ s
  · rw [if_pos hx]
    constructor
    · exact Or.inl
    · rintro (h | rfl)
      · exact h
      · exact hx
  · rw [if_neg hx]
    simp

theorem nodup_insertNew {s : List Int} {x : Int} (h : s.Nodup) :
    (insertNew s x).Nodup := by
  rw [insertNew]
  by_cases hx : x ∈ s
  · rw [if_pos hx]
    exact h
  · rw [if_neg hx]
    simp [List.nodup_append, h, hx]

theorem mem_foldl_ins (l : List (Int × Int)) :
    ∀ (acc : List Int) (y : Int),
      (y ∈ l.foldl (fun s p => insertNew (insertNew s p.1) p.2) acc ↔
        y ∈ acc ∨ ∃ p ∈ l, y = p.1 ∨ y = p.2) := by
  induction l with
  | nil => intro acc y; simp
  | cons q l ih =>
    intro acc y
    rw [List.foldl_cons, ih, mem_insertNew, mem_insertNew]
    constructor
    · rintro (((h | h) | h) | ⟨p, hp, h⟩)
      · exact Or.inl h
      · exact Or.inr ⟨q, List.mem_cons_self q l, Or.inl h⟩
      · exact Or.inr ⟨q, List.mem_cons_self q l, Or.inr h⟩
      · exact Or.inr ⟨p, List.mem_cons_of_mem q hp, h⟩
    · rintro (h | ⟨p, hp, h⟩)
      · exact Or.inl (Or.inl (Or.inl h))
      · rcases List.mem_cons.mp hp with heq | hp'
        · subst heq
          rcases h with h | h
          · exact Or.inl (Or.inl (Or.inr h))
          · exact Or.inl (Or.inr h)
        · exact Or.inr ⟨p, hp', h⟩

theorem nodup_foldl_ins (l : List (Int × Int)) :
    ∀ acc : List Int, acc.Nodup →
      (l.foldl (fun s p => insertNew (insertNew s p.1) p.2) acc).Nodup := by
  induction l with
  | nil => intro acc h; exact h
  | cons q l ih =>
    intro acc h
    exact ih _ (nodup_insertNew (nodup_insertNew h))

theorem mem_allNodeIds {recs : List Record} {y : Int} :
    y ∈ allNodeIds recs ↔ ∃ p ∈ validRecs recs, y = p.1 ∨ y = p.2 := by
  rw [allNodeIds, mem_foldl_ins]
  simp

theorem nodup_allNodeIds (recs : List Record) : (allNodeIds recs).Nodup :=
  nodup_foldl_ins _ _ List.nodup_nil

theorem mem_foldl_nbr (x : Int) (l : List (Int × Int)) :
    ∀ (acc : List Int) (y : Int),
      (y ∈ l.foldl (nbrAccum x) acc ↔
        y ∈ acc ∨ ∃ p ∈ l, p.1 ≠ p.2 ∧ ((p.1 = x ∧ p.2 = y) ∨ (p.2 = x ∧ p.1 = y))) := by
  induction l with
  | nil => intro acc y; simp
  | cons q l ih =>
    intro acc y
    rw [List.foldl_cons, ih]
    have hstep : y ∈ nbrAccum x acc q ↔
        y ∈ acc ∨ (q.1 ≠ q.2 ∧ ((q.1 = x ∧ q.2 = y) ∨ (q.2 = x ∧ q.1 = y))) := by
      rw [nbrAccum]
      by_cases h12 : q.1 = q.2
      · rw [if_pos h12]
        simp [h12]
      · rw [if_neg h12]
        by_cases h1x : q.1 = x
        · rw [if_pos h1x, mem_insertNew]
          constructor
          · rintro (h | rfl)
            · exact Or.inl h
            · exact Or.inr ⟨h12, Or.inl ⟨h1x, rfl⟩⟩
          · rintro (h | ⟨hne, (⟨hqx, hqy⟩ | ⟨hqx, hqy⟩)⟩)
            · exact Or.inl h
            · exact Or.inr hqy.symm
            · exact absurd (h1x.trans hqx.symm) h12
        · rw [if_neg h1x]
          by_cases h2x : q.2 = x
          · rw [if_pos h2x, mem_insertNew]
            constructor
            · rintro (h | rfl)
              · exact Or.inl h
              · exact Or.inr ⟨h12, Or.inr ⟨h2x, rfl⟩⟩
            · rintro (h | ⟨hne, (⟨hqx, hqy⟩ | ⟨hqx, hqy⟩)⟩)
              · exact Or.inl h
              · exact absurd hqx h1x
              · exact Or.inr hqy.symm
          · rw [if_neg h2x]
            constructor
            · exact Or.inl
            · rintro (h | ⟨hne, (⟨hqx, hqy⟩ | ⟨hqx, hqy⟩)⟩)
              · exact h
              · exact absurd hqx h1x
              · exact absurd hqx h2x
    rw [hstep]
    constructor
    · rintro ((h | hq) | ⟨p, hp, h⟩)
      · exact Or.inl h
      · exact Or.inr ⟨q, List.mem_cons_self q l, hq⟩
      · exact Or.inr ⟨p, List.mem_cons_of_mem q hp, h⟩
    · rintro (h | ⟨p, hp, h⟩)
      · exact Or.inl (Or.inl h)
      · rcases List.mem_cons.mp hp with heq | hp'
        · subst heq
          exact Or.inl (Or.inr h)
        · exact Or.inr ⟨p, hp', h⟩

theorem mem_nbrSet {recs : List Record} {x y : Int} :
    y ∈ nbrSet recs x ↔
      ∃ p ∈ validRecs recs, p.1 ≠ p.2 ∧ ((p.1 = x ∧ p.2 = y) ∨ (p.2 = x ∧ p.1 = y)) := by
  rw [nbrSet, mem_foldl_nbr]
  simp

theorem nodup_nbrSet (recs : List Record) (x : Int) : (nbrSet recs x).Nodup := by
  rw [nbrSet]
  have hgen : ∀ (l : List (Int × Int)) (acc : List Int), acc.Nodup →
      (l.foldl (nbrAccum x) acc).Nodup := by
    intro l
    induction l with
    | nil => intro acc h; exact h
    | cons q l ih =>
      intro acc h
      apply ih
      rw [nbrAccum]
      by_cases h12 : q.1 = q.2
      · rw [if_pos h12]; exact h
      · rw [if_neg h12]
        by_cases h1x : q.1 = x
        · rw [if_pos h1x]; exact nodup_insertNew h
        · rw [if_neg h1x]
          by_cases h2x : q.2 = x
          · rw [if_pos h2x]; exact nodup_insertNew h
          · rw [if_neg h2x]; exact h
  exact hgen _ _ List.nodup_nil

theorem nbrSet_symm {recs : List Record} {x y : Int} :
    y ∈ nbrSet recs x ↔ x ∈ nbrSet recs y := by
  rw [mem_nbrSet, mem_nbrSet]
  constructor
  · rintro ⟨p, hp, hne, (⟨h1, h2⟩ | ⟨h1, h2⟩)⟩
    · exact ⟨p, hp, hne, Or.inr ⟨h2, h1⟩⟩
    · exact ⟨p, hp, hne, Or.inl ⟨h2, h1⟩⟩
  · rintro ⟨p, hp, hne, (⟨h1, h2⟩ | ⟨h1, h2⟩)⟩
    · exact ⟨p, hp, hne, Or.inr ⟨h2, h1⟩⟩
    · exact ⟨p, hp, hne, Or.inl ⟨h2, h1⟩⟩

theorem not_mem_nbrSet_self (recs : List Record) (x : Int) : x ∉ nbrSet recs x := by
  rw [mem_nbrSet]
  rintro ⟨p, hp, hne, (⟨h1, h2⟩ | ⟨h1, h2⟩)⟩
  · exact hne (h1.trans h2.symm)
  · exact hne (h2.trans h1.symm)

theorem nbrSet_subset_allNodeIds {recs : List Record} {x y : Int}
    (h : y ∈ nbrSet recs x) : y ∈ allNodeIds recs ∧ x ∈ allNodeIds recs := by
  rw [mem_nbrSet] at h
  obtain ⟨p, hp, hne, hc⟩ := h
  rw [mem_allNodeIds, mem_allNodeIds]
  rcases hc with ⟨h1, h2⟩ | ⟨h1, h2⟩
  · exact ⟨⟨p, hp, Or.inr h2.symm⟩, ⟨p, hp, Or.inl h1.symm⟩⟩
  · exact ⟨⟨p, hp, Or.inl h2.symm⟩, ⟨p, hp, Or.inr h1.symm⟩⟩

/-! ### The sorted node-id list and rank relabelling -/

theorem sorted_sortedNodeIds (recs : List Record) :
    List.Sorted (· ≤ ·) (sortedNodeIds recs) :=
  List.sorted_insertionSort (· ≤ ·) (allNodeIds recs)

theorem nodup_sortedNodeIds (recs : List Record) : (sortedNodeIds recs).Nodup :=
  (List.perm_insertionSort (· ≤ ·) (allNodeIds recs)).nodup_iff.mpr (nodup_allNodeIds recs)

theorem sortedNodeIds_sorted_lt (recs : List Record) :
    List.Sorted (· < ·) (sortedNodeIds recs) :=
  (sorted_sortedNodeIds recs).lt_of_le (nodup_sortedNodeIds recs)

theorem mem_sortedNodeIds {recs : List Record} {y : Int} :
    y ∈ sortedNodeIds recs ↔ y ∈ allNodeIds recs :=
  (List.perm_insertionSort (· ≤ ·) (allNodeIds recs)).mem_iff

theorem indexOf_lt_of_lt {ids : List Int} (hs : List.Sorted (· < ·) ids) {x y : Int}
    (hx : x ∈ ids) (hy : y ∈ ids) (hxy : x < y) : ids.indexOf x < ids.indexOf y := by
  have hxl : ids.indexOf x < ids.length := List.indexOf_lt_length.mpr hx
  have hyl : ids.indexOf y < ids.length := List.indexOf_lt_length.mpr hy
  by_contra hc
  have hle : ids.indexOf y ≤ ids.indexOf x := not_lt.mp hc
  have hmono := hs.get_strictMono.monotone (show (⟨ids.indexOf y, hyl⟩ : Fin ids.length) ≤ ⟨ids.indexOf x, hxl⟩ from hle)
  rw [List.indexOf_get hyl, List.indexOf_get hxl] at hmono
  exact absurd (lt_of_lt_of_le hxy hmono) (lt_irrefl x)

theorem getD_indexOf {ids : List Int} {x : Int} (hx : x ∈ ids) :
    ids.getD (ids.indexOf x) 0 = x := by
  have hxl : ids.indexOf x < ids.length := List.indexOf_lt_length.mpr hx
  rw [List.getD_eq_getElem ids 0 hxl]
  have := List.indexOf_get hxl
  rw [List.get_eq_getElem] at this
  exact this

theorem indexOf_getD {ids : List Int} (hnd : ids.Nodup) {j : Nat} (hj : j < ids.length) :
    ids.indexOf (ids.getD j 0) = j := by
  have hmem : ids.getD j 0 ∈ ids := by
    rw [List.getD_eq_getElem ids 0 hj]
    exact List.getElem_mem hj
  have hxl : ids.indexOf (ids.getD j 0) < ids.length := List.indexOf_lt_length.mpr hmem
  have hget : ids.get ⟨ids.indexOf (ids.getD j 0), hxl⟩ = ids.get ⟨j, hj⟩ := by
    rw [List.indexOf_get hxl, List.get_eq_getElem, List.getD_eq_getElem ids 0 hj]
  exact congrArg Fin.val ((List.nodup_iff_injective_get.mp hnd) hget)

/-! ### Structure of the emitted CSR arrays -/

theorem rowOffsets_length (ls : List (List Nat)) : (rowOffsets ls).length = ls.length + 1 := by
  induction ls with
  | nil => rfl
  | cons l ls ih => simp [rowOffsets, ih]

theorem rowOffsets_sorted (ls : List (List Nat)) : List.Sorted (· ≤ ·) (rowOffsets ls) := by
  induction ls with
  | nil => simp [rowOffsets]
  | cons l ls ih =>
    rw [rowOffsets, List.sorted_cons]
    exact ⟨fun b _ => Nat.zero_le b,
      List.Pairwise.map _ (fun a b hab => Nat.add_le_add_left hab l.length) ih⟩

theorem rowOffsets_getD (ls : List (List Nat)) :
    ∀ i, i ≤ ls.length → (rowOffsets ls).getD i 0 = ((ls.take i).map List.length).sum := by
  induction ls with
  | nil =>
    intro i hi
    have hz : i = 0 := by simpa using hi
    subst hz
    rfl
  | cons l ls ih =>
    intro i hi
    cases i with
    | zero => rfl
    | succ k =>
      rw [rowOffsets, List.getD_cons_succ]
      have hk : k ≤ ls.length := by simpa using hi
      have hklen : k < (rowOffsets ls).length := by rw [rowOffsets_length]; omega
      rw [List.getD_eq_getElem _ 0 (by rw [List.length_map]; exact hklen), List.getElem_map,
        ← List.getD_eq_getElem _ 0 hklen, ih k hk]
      simp [List.take_succ_cons]

theorem numNodes_mkCSR (lists : List (List Nat)) : numNodes (mkCSR lists) = lists.length := by
  simp [numNodes, mkCSR, rowOffsets_length]

theorem mkCSR_rowLen (lists : List (List Nat)) : 0 < (mkCSR lists).rowPtr.length := by
  show 0 < (rowOffsets lists).length
  rw [rowOffsets_length]
  exact Nat.succ_pos _

theorem mkCSR_mono (lists : List (List Nat)) : List.Sorted (· ≤ ·) (mkCSR lists).rowPtr :=
  rowOffsets_sorted lists

theorem rp_mkCSR (lists : List (List Nat)) {i : Nat} (hi : i ≤ lists.length) :
    rp (mkCSR lists) i = ((lists.take i).map List.length).sum := by
  rw [rp]
  exact rowOffsets_getD lists i hi

theorem mkCSR_edge_length (lists : List (List Nat)) :
    (mkCSR lists).edgeList.length = (lists.map List.length).sum := by
  simp [mkCSR, List.length_flatten]

theorem mkCSR_lastEq (lists : List (List Nat)) :
    rp (mkCSR lists) (numNodes (mkCSR lists)) = (mkCSR lists).edgeList.length := by
  rw [numNodes_mkCSR, rp_mkCSR lists (le_refl _), mkCSR_edge_length, List.take_length]

theorem flatten_slice (lists : List (List Nat)) :
    ∀ i, i < lists.length →
      ((lists.flatten.take (((lists.take (i + 1)).map List.length).sum)).drop
        (((lists.take i).map List.length).sum)) = lists.getD i [] := by
  induction lists with
  | nil => intro i hi; exact absurd hi (by simp)
  | cons l ls ih =>
    intro i hi
    cases i with
    | zero =>
      rw [List.flatten_cons]
      simp only [List.take_zero, List.map_nil, List.sum_nil, List.drop_zero,
        List.take_succ_cons, List.map_cons, List.sum_cons, List.sum_nil, Nat.add_zero]
      rw [List.take_left]
      rfl
    | succ k =>
      have hk : k < ls.length := by simpa using hi
      rw [List.flatten_cons, List.take_succ_cons, List.take_succ_cons, List.map_cons,
        List.map_cons, List.sum_cons, List.sum_cons, List.take_append, List.drop_append,
        List.getD_cons_succ]
      exact ih k hk

theorem nodeSlice_mkCSR (lists : List (List Nat)) {i : Nat} (hi : i < lists.length) :
    nodeSlice (mkCSR lists) i = lists.getD i [] := by
  rw [nodeSlice, rp_mkCSR lists (by omega), rp_mkCSR lists (by omega), sliceFrom]
  exact flatten_slice lists i hi

/-! ### The builder's per-node slices -/

theorem buildCSR_numNodes (recs : List Record) :
    numNodes (buildCSR recs) = (sortedNodeIds recs).length := by
  rw [buildCSR, numNodes_mkCSR, List.length_map]

theorem buildCSR_nodeSlice (recs : List Record) {i : Nat}
    (hi : i < (sortedNodeIds recs).length) :
    nodeSlice (buildCSR recs) i =
      nbrList recs (sortedNodeIds recs) ((sortedNodeIds recs).getD i 0) := by
  rw [buildCSR, nodeSlice_mkCSR _ (by rw [List.length_map]; exact hi)]
  rw [List.getD_eq_getElem _ [] (by rw [List.length_map]; exact hi), List.getElem_map,
    ← List.getD_eq_getElem _ 0 hi]

theorem mem_nbrList_iff (recs : List Record) {i j : Nat}
    (hi : i < (sortedNodeIds recs).length) (hj : j < (sortedNodeIds recs).length) :
    (j ∈ nbrList recs (sortedNodeIds recs) ((sortedNodeIds recs).getD i 0) ↔
      (sortedNodeIds recs).getD j 0 ∈ nbrSet recs ((sortedNodeIds recs).getD i 0)) := by
  rw [nbrList, List.mem_map]
  constructor
  · rintro ⟨y, hy, hidx⟩
    have hymem : y ∈ nbrSet recs ((sortedNodeIds recs).getD i 0) :=
      (List.perm_insertionSort (· ≤ ·) _).mem_iff.mp hy
    have hyids : y ∈ sortedNodeIds recs :=
      mem_sortedNodeIds.mpr (nbrSet_subset_allNodeIds hymem).1
    rw [← hidx, getD_indexOf hyids]
    exact hymem
  · intro hmem
    exact ⟨(sortedNodeIds recs).getD j 0,
      (List.perm_insertionSort (· ≤ ·) _).mem_iff.mpr hmem,
      indexOf_getD (nodup_sortedNodeIds recs) hj⟩

theorem mem_nbrList_lt (recs : List Record) {x : Int} {j : Nat}
    (hj : j ∈ nbrList recs (sortedNodeIds recs) x) : j < (sortedNodeIds recs).length := by
  rw [nbrList, List.mem_map] at hj
  obtain ⟨y, hy, hidx⟩ := hj
  have hymem : y ∈ nbrSet recs x := (List.perm_insertionSort (· ≤ ·) _).mem_iff.mp hy
  have hyids : y ∈ sortedNodeIds recs :=
    mem_sortedNodeIds.mpr (nbrSet_subset_allNodeIds hymem).1
  rw [← hidx]
  exact List.indexOf_lt_length.mpr hyids

theorem nbrList_sorted (recs : List Record) (x : Int) :
    List.Sorted (· < ·) (nbrList recs (sortedNodeIds recs) x) := by
  rw [nbrList]
  have hnodup : (List.insertionSort (· ≤ ·) (nbrSet recs x)).Nodup :=
    (List.perm_insertionSort (· ≤ ·) _).nodup_iff.mpr (nodup_nbrSet recs x)
  have hsorted : List.Sorted (· < ·) (List.insertionSort (· ≤ ·) (nbrSet recs x)) :=
    (List.sorted_insertionSort (· ≤ ·) _).lt_of_le hnodup
  apply List.pairwise_map.mpr
  refine List.Pairwise.imp_of_mem ?_ hsorted
  intro a b ha hb hab
  have ha' : a ∈ sortedNodeIds recs := mem_sortedNodeIds.mpr
    (nbrSet_subset_allNodeIds ((List.perm_insertionSort (· ≤ ·) _).mem_iff.mp ha)).1
  have hb' : b ∈ sortedNodeIds recs := mem_sortedNodeIds.mpr
    (nbrSet_subset_allNodeIds ((List.perm_insertionSort (· ≤ ·) _).mem_iff.mp hb)).1
  exact indexOf_lt_of_lt (sortedNodeIds_sorted_lt recs) ha' hb' hab

/-- The CSR Graph produced by the builder satisfies every §3 invariant. -/
theorem buildCSR_WF (recs : List Record) : WF (buildCSR recs) := by
  constructor
  · simp [buildCSR, mkCSR, rowOffsets_length]
  · exact rowOffsets_sorted _
  · exact mkCSR_lastEq _
  · intro u hu
    rw [buildCSR_numNodes] at hu
    rw [buildCSR_nodeSlice recs hu]
    exact nbrList_sorted recs _
  · intro u hu hmem
    rw [buildCSR_numNodes] at hu
    rw [buildCSR_nodeSlice recs hu] at hmem
    exact not_mem_nbrSet_self recs _ ((mem_nbrList_iff recs hu hu).mp hmem)
  · intro u hu v hv
    rw [buildCSR_numNodes] at hu
    rw [buildCSR_nodeSlice recs hu] at hv
    rw [buildCSR_numNodes]
    exact mem_nbrList_lt recs hv
  · intro u hu v hv hadj
    rw [buildCSR_numNodes] at hu hv
    rw [Adj, buildCSR_nodeSlice recs hu] at hadj
    rw [Adj, buildCSR_nodeSlice recs hv]
    exact (mem_nbrList_iff recs hv hu).mpr
      (nbrSet_symm.mp ((mem_nbrList_iff recs hu hv).mp hadj))

/-- Internal adjacency in the built CSR Graph coincides with external
adjacency through the rank relabelling. -/
theorem Adj_buildCSR (recs : List Record) {i j : Nat}
    (hi : i < (sortedNodeIds recs).length) (hj : j < (sortedNodeIds recs).length) :
    (Adj (buildCSR recs) i j ↔
      extAdj recs ((sortedNodeIds recs).getD i 0) ((sortedNodeIds recs).getD j 0)) := by
  rw [Adj, buildCSR_nodeSlice recs hi, extAdj]
  exact mem_nbrList_iff recs hi hj

/-! ### Rank relabelling is an order isomorphism -/

theorem getD_mem {ids : List Int} {i : Nat} (hi : i < ids.length) : ids.getD i 0 ∈ ids := by
  rw [List.getD_eq_getElem ids 0 hi]
  exact List.getElem_mem hi

theorem getD_lt_getD {ids : List Int} (hs : List.Sorted (· < ·) ids) {i j : Nat}
    (hi : i < ids.length) (hj : j < ids.length) :
    (ids.getD i 0 < ids.getD j 0 ↔ i < j) := by
  rw [List.getD_eq_getElem ids 0 hi, List.getD_eq_getElem ids 0 hj]
  constructor
  · intro h
    by_contra hc
    have hle : j ≤ i := not_lt.mp hc
    have hmono := hs.get_strictMono.monotone
      (show (⟨j, hj⟩ : Fin ids.length) ≤ ⟨i, hi⟩ from hle)
    rw [List.get_eq_getElem, List.get_eq_getElem] at hmono
    exact absurd (lt_of_lt_of_le h hmono) (lt_irrefl _)
  · intro h
    have hmono := hs.get_strictMono (show (⟨i, hi⟩ : Fin ids.length) < ⟨j, hj⟩ from h)
    rw [List.get_eq_getElem, List.get_eq_getElem] at hmono
    exact hmono

theorem getD_inj {ids : List Int} (hnd : ids.Nodup) {i j : Nat}
    (hi : i < ids.length) (hj : j < ids.length)
    (h : ids.getD i 0 = ids.getD j 0) : i = j := by
  have hidx := indexOf_getD hnd hi
  rw [h, indexOf_getD hnd hj] at hidx
  exact hidx.symm

/-- The triangle count of the built CSR Graph equals the triangle count of
the input edge set over external ids: the rank relabelling is an
order-preserving bijection that transports one triple set onto the other. -/
theorem triangleCount_buildCSR (recs : List Record) :
    triangleCount (buildCSR recs) = extTriangleCount recs := by
  have hs := sortedNodeIds_sorted_lt recs
  have hnd := nodup_sortedNodeIds recs
  rw [triangleCount, extTriangleCount]
  apply Finset.card_bij (fun t _ =>
    ((sortedNodeIds recs).getD t.1 0,
     (sortedNodeIds recs).getD t.2.1 0,
     (sortedNodeIds recs).getD t.2.2 0))
  · rintro ⟨a, b, c⟩ ht
    simp only [triangleTriples, Finset.mem_filter, Finset.mem_product, Finset.mem_range,
      buildCSR_numNodes] at ht
    obtain ⟨⟨h1, h2, h3⟩, hab, hbc, hA1, hA2, hA3⟩ := ht
    simp only [extTriples, Finset.mem_filter, Finset.mem_product, List.mem_toFinset]
    refine ⟨⟨mem_sortedNodeIds.mp (getD_mem h1), mem_sortedNodeIds.mp (getD_mem h2),
      mem_sortedNodeIds.mp (getD_mem h3)⟩, ?_, ?_, ?_, ?_, ?_⟩
    · exact (getD_lt_getD hs h1 h2).mpr hab
    · exact (getD_lt_getD hs h2 h3).mpr hbc
    · exact (Adj_buildCSR recs h1 h2).mp hA1
    · exact (Adj_buildCSR recs h1 h3).mp hA2
    · exact (Adj_buildCSR recs h2 h3).mp hA3
  · rintro ⟨a₁, b₁, c₁⟩ h₁ ⟨a₂, b₂, c₂⟩ h₂ heq
    simp only [triangleTriples, Finset.mem_filter, Finset.mem_product, Finset.mem_range,
      buildCSR_numNodes] at h₁ h₂
    simp only [Prod.mk.injEq] at heq
    obtain ⟨e1, e2, e3⟩ := heq
    simp only [Prod.mk.injEq]
    exact ⟨getD_inj hnd h₁.1.1 h₂.1.1 e1, getD_inj hnd h₁.1.2.1 h₂.1.2.1 e2,
      getD_inj hnd h₁.1.2.2 h₂.1.2.2 e3⟩
  · rintro ⟨x, y, z⟩ hy
    simp only [extTriples, Finset.mem_filter, Finset.mem_product, List.mem_toFinset] at hy
    obtain ⟨⟨hx1, hy1, hz1⟩, hxy, hyz, hE1, hE2, hE3⟩ := hy
    have hx2 : x ∈ sortedNodeIds recs := mem_sortedNodeIds.mpr hx1
    have hy2 : y ∈ sortedNodeIds recs := mem_sortedNodeIds.mpr hy1
    have hz2 : z ∈ sortedNodeIds recs := mem_sortedNodeIds.mpr hz1
    have hxl : (sortedNodeIds recs).indexOf x < (sortedNodeIds recs).length :=
      List.indexOf_lt_length.mpr hx2
    have hyl : (sortedNodeIds recs).indexOf y < (sortedNodeIds recs).length :=
      List.indexOf_lt_length.mpr hy2
    have hzl : (sortedNodeIds recs).indexOf z < (sortedNodeIds recs).length :=
      List.indexOf_lt_length.mpr hz2
    refine ⟨((sortedNodeIds recs).indexOf x, (sortedNodeIds recs).indexOf y,
      (sortedNodeIds recs).indexOf z), ?_, ?_⟩
    · simp only [triangleTriples, Finset.mem_filter, Finset.mem_product, Finset.mem_range,
        buildCSR_numNodes]
      refine ⟨⟨hxl, hyl, hzl⟩, ?_, ?_, ?_, ?_, ?_⟩
      · exact indexOf_lt_of_lt hs hx2 hy2 hxy
      · exact indexOf_lt_of_lt hs hy2 hz2 hyz
      · rw [Adj_buildCSR recs hxl hyl, getD_indexOf hx2, getD_indexOf hy2]
        exact hE1
      · rw [Adj_buildCSR recs hxl hzl, getD_indexOf hx2, getD_indexOf hz2]
        exact hE2
      · rw [Adj_buildCSR recs hyl hzl, getD_indexOf hy2, getD_indexOf hz2]
        exact hE3
    · simp only [Prod.mk.injEq]
      exact ⟨getD_indexOf hx2, getD_indexOf hy2, getD_indexOf hz2⟩

/-! ### The builder depends only on the multiset of valid records -/

theorem mem_validRecs {recs : List Record} {p : Int × Int} :
    p ∈ validRecs recs ↔ (some p.1, some p.2) ∈ recs := by
  rw [validRecs, List.mem_filterMap]
  constructor
  · rintro ⟨r, hr, hpr⟩
    rcases r with ⟨_ | u, _ | v⟩
    · exact absurd hpr (by simp)
    · exact absurd hpr (by simp)
    · exact absurd hpr (by simp)
    · rw [Option.some.injEq] at hpr
      rw [← hpr]
      exact hr
  · intro h
    exact ⟨(some p.1, some p.2), h, rfl⟩

theorem validRecs_perm {r1 r2 : List Record} (h : r1.Perm r2) :
    (validRecs r1).Perm (validRecs r2) := h.filterMap _

theorem sortEq {s t : List Int} (hs : s.Nodup) (ht : t.Nodup)
    (hmem : ∀ y, y ∈ s ↔ y ∈ t) :
    List.insertionSort (· ≤ ·) s = List.insertionSort (· ≤ ·) t := by
  have hperm : s.Perm t := List.perm_of_nodup_nodup_toFinset_eq hs ht
    (by ext y; simp only [List.mem_toFinset]; exact hmem y)
  exact List.eq_of_perm_of_sorted
    (((List.perm_insertionSort (· ≤ ·) s).trans hperm).trans
      (List.perm_insertionSort (· ≤ ·) t).symm)
    (List.sorted_insertionSort (· ≤ ·) s)
    (List.sorted_insertionSort (· ≤ ·) t)

/-- Shuffling the input records leaves the built CSR Graph unchanged: all
per-node sets have the same members, and sorting makes the output
canonical. -/
theorem buildCSR_eq_of_perm {r1 r2 : List Record} (h : r1.Perm r2) :
    buildCSR r1 = buildCSR r2 := by
  have hv := validRecs_perm h
  have hall : ∀ y, y ∈ allNodeIds r1 ↔ y ∈ allNodeIds r2 := by
    intro y
    rw [mem_allNodeIds, mem_allNodeIds]
    constructor
    · rintro ⟨p, hp, hc⟩
      exact ⟨p, hv.mem_iff.mp hp, hc⟩
    · rintro ⟨p, hp, hc⟩
      exact ⟨p, hv.mem_iff.mpr hp, hc⟩
  have hnbr : ∀ x y, y ∈ nbrSet r1 x ↔ y ∈ nbrSet r2 x := by
    intro x y
    rw [mem_nbrSet, mem_nbrSet]
    constructor
    · rintro ⟨p, hp, hc⟩
      exact ⟨p, hv.mem_iff.mp hp, hc⟩
    · rintro ⟨p, hp, hc⟩
      exact ⟨p, hv.mem_iff.mpr hp, hc⟩
  have hids : sortedNodeIds r1 = sortedNodeIds r2 := by
    rw [sortedNodeIds, sortedNodeIds]
    exact sortEq (nodup_allNodeIds r1) (nodup_allNodeIds r2) hall
  rw [buildCSR, buildCSR, hids]
  congr 1
  apply List.map_congr_left
  intro x _
  rw [nbrList, nbrList, sortEq (nodup_nbrSet r1 x) (nodup_nbrSet r2 x) (hnbr x)]

theorem buildCSR_congr {r1 r2 : List Record} (h : validRecs r1 = validRecs r2) :
    buildCSR r1 = buildCSR r2 := by
  have hall : allNodeIds r1 = allNodeIds r2 := by rw [allNodeIds, allNodeIds, h]
  have hids : sortedNodeIds r1 = sortedNodeIds r2 := by
    rw [sortedNodeIds, sortedNodeIds, hall]
  rw [buildCSR, buildCSR, hids]
  congr 1
  apply List.map_congr_left
  intro x _
  rw [nbrList, nbrList, nbrSet, nbrSet, h]

theorem validRecs_filter (recs : List Record) :
    validRecs (recs.filter isValidRecord) = validRecs recs := by
  rw [validRecs, validRecs]
  induction recs with
  | nil => rfl
  | cons r recs ih =>
    rcases r with ⟨_ | u, _ | v⟩ <;>
      simp_all [List.filter_cons, List.filterMap_cons, isValidRecord]

/-! ### The whole pipeline -/

theorem numWorkgroups_mul_ge (n : Nat) : n ≤ numWorkgroups n * 256 := by
  rw [numWorkgroups]
  omega

/-- Engine theorem for the full pipeline: for every record list, the value
read back from the counter is the input's exact triangle count reduced
modulo `2^32`. -/
theorem runCount_eq (recs : List Record) :
    runCount recs = some (extTriangleCount recs % 4294967296) := by
  rw [runCount, counterFinal, buildCSR_numNodes,
    sumTasks_eq_triangleCount (buildCSR recs) (buildCSR_WF recs)
      (by rw [buildCSR_numNodes]; exact numWorkgroups_mul_ge _),
    triangleCount_buildCSR]
  rfl

/-! ### Adding self-loops or duplicate records -/

theorem validRecs_append (r1 r2 : List Record) :
    validRecs (r1 ++ r2) = validRecs r1 ++ validRecs r2 :=
  List.filterMap_append r1 r2 _

theorem nbrSet_extra {recs extra : List Record}
    (hex : ∀ r ∈ extra, (∃ a : Int, r = (some a, some a)) ∨ r ∈ recs) (x y : Int) :
    (y ∈ nbrSet (recs ++ extra) x ↔ y ∈ nbrSet recs x) := by
  rw [mem_nbrSet, mem_nbrSet, validRecs_append]
  constructor
  · rintro ⟨p, hp, hne, hc⟩
    rcases List.mem_append.mp hp with hp' | hp'
    · exact ⟨p, hp', hne, hc⟩
    · have hrec : (some p.1, some p.2) ∈ extra := mem_validRecs.mp hp'
      rcases hex _ hrec with ⟨a, ha⟩ | hmem
      · rw [Prod.mk.injEq, Option.some.injEq, Option.some.injEq] at ha
        exact absurd (ha.1.trans ha.2.symm) hne
      · exact ⟨p, mem_validRecs.mpr hmem, hne, hc⟩
  · rintro ⟨p, hp, hne, hc⟩
    exact ⟨p, List.mem_append.mpr (Or.inl hp), hne, hc⟩

theorem mem_allNodeIds_append_left {recs extra : List Record} {y : Int}
    (h : y ∈ allNodeIds recs) : y ∈ allNodeIds (recs ++ extra) := by
  rw [mem_allNodeIds] at h ⊢
  obtain ⟨p, hp, hc⟩ := h
  refine ⟨p, ?_, hc⟩
  rw [validRecs_append]
  exact List.mem_append.mpr (Or.inl hp)

/-- Appending records that are self-loops or copies of existing records
leaves the triangle set of the input unchanged. -/
theorem extTriples_extra {recs extra : List Record}
    (hex : ∀ r ∈ extra, (∃ a : Int, r = (some a, some a)) ∨ r ∈ recs) :
    extTriples (recs ++ extra) = extTriples recs := by
  have hAdj : ∀ x y, (extAdj (recs ++ extra) x y ↔ extAdj recs x y) :=
    fun x y => nbrSet_extra hex x y
  apply Finset.ext
  rintro ⟨x, y, z⟩
  simp only [extTriples, Finset.mem_filter, Finset.mem_product, List.mem_toFinset]
  constructor
  · rintro ⟨hm, h1, h2, h3, h4, h5⟩
    rw [hAdj] at h3 h4 h5
    exact ⟨⟨(nbrSet_subset_allNodeIds h3).2, (nbrSet_subset_allNodeIds h3).1,
      (nbrSet_subset_allNodeIds h4).1⟩, h1, h2, h3, h4, h5⟩
  · rintro ⟨⟨hx, hy, hz⟩, h1, h2, h3, h4, h5⟩
    exact ⟨⟨mem_allNodeIds_append_left hx, mem_allNodeIds_append_left hy,
      mem_allNodeIds_append_left hz⟩, h1, h2, (hAdj x y).mpr h3, (hAdj x z).mpr h4,
      (hAdj y z).mpr h5⟩

/-! ### A well-formed graph with 2^32 triangles -/

theorem tripleLists_length (t : Nat) : (tripleLists t).length = 3 * t := by
  rw [tripleLists, List.length_map, List.length_range]

theorem tripleLists_getD {t u : Nat} (hu : u < 3 * t) :
    (tripleLists t).getD u [] = tripleNbrs u := by
  rw [tripleLists]
  have hlen : u < (List.range (3 * t)).length := by rw [List.length_range]; exact hu
  rw [List.getD_eq_getElem _ [] (by rw [List.length_map]; exact hlen), List.getElem_map,
    List.getElem_range]

theorem mem_tripleNbrs {t u v : Nat} (hu : u < 3 * t) :
    v ∈ tripleNbrs u ↔ (v ≠ u ∧ v / 3 = u / 3 ∧ v < 3 * t) := by
  rw [tripleNbrs]
  by_cases h0 : u % 3 = 0
  · rw [if_pos h0]
    simp only [List.mem_cons, List.not_mem_nil, or_false]
    omega
  · rw [if_neg h0]
    by_cases h1 : u % 3 = 1
    · rw [if_pos h1]
      simp only [List.mem_cons, List.not_mem_nil, or_false]
      omega
    · rw [if_neg h1]
      simp only [List.mem_cons, List.not_mem_nil, or_false]
      omega

theorem tripleNbrs_sorted (u : Nat) : List.Sorted (· < ·) (tripleNbrs u) := by
  rw [tripleNbrs]
  by_cases h0 : u % 3 = 0
  · rw [if_pos h0]
    simp only [List.sorted_cons, List.mem_cons, List.not_mem_nil, or_false, forall_eq,
      List.sorted_singleton, and_true]
    exact ⟨by omega, fun b hb => hb.elim, List.sorted_nil⟩
  · rw [if_neg h0]
    by_cases h1 : u % 3 = 1
    · rw [if_pos h1]
      simp only [List.sorted_cons, List.mem_cons, List.not_mem_nil, or_false, forall_eq,
        List.sorted_singleton, and_true]
      exact ⟨by omega, fun b hb => hb.elim, List.sorted_nil⟩
    · rw [if_neg h1]
      simp only [List.sorted_cons, List.mem_cons, List.not_mem_nil, or_false, forall_eq,
        List.sorted_singleton, and_true]
      exact ⟨by omega, fun b hb => hb.elim, List.sorted_nil⟩

theorem bigGraph_numNodes : numNodes bigGraph = 3 * 4294967296 := by
  rw [bigGraph, numNodes_mkCSR, tripleLists_length]

theorem bigGraph_nodeSlice {u : Nat} (hu : u < 3 * 4294967296) :
    nodeSlice bigGraph u = tripleNbrs u := by
  rw [bigGraph, nodeSlice_mkCSR _ (by rw [tripleLists_length]; exact hu), tripleLists_getD hu]

theorem bigGraph_WF : WF bigGraph := by
  have hT : ∀ {u : Nat}, u < numNodes bigGraph → u < 3 * 4294967296 := by
    rw [bigGraph_numNodes]
    exact id
  constructor
  · exact mkCSR_rowLen _
  · exact mkCSR_mono _
  · exact mkCSR_lastEq _
  · intro u hu
    rw [bigGraph_nodeSlice (hT hu)]
    exact tripleNbrs_sorted u
  · intro u hu hmem
    rw [bigGraph_nodeSlice (hT hu), mem_tripleNbrs (hT hu)] at hmem
    exact hmem.1 rfl
  · intro u hu v hv
    rw [bigGraph_nodeSlice (hT hu), mem_tripleNbrs (hT hu)] at hv
    rw [bigGraph_numNodes]
    exact hv.2.2
  · intro u hu v hv hadj
    simp only [Adj] at hadj ⊢
    rw [bigGraph_nodeSlice (hT hu), mem_tripleNbrs (hT hu)] at hadj
    rw [bigGraph_nodeSlice (hT hv), mem_tripleNbrs (hT hv)]
    refine ⟨fun hc => hadj.1 hc.symm, hadj.2.1.symm, hT hu⟩

theorem triples_card_lower (g : CSR) (T : Nat)
    (hmaps : ∀ k ∈ Finset.range T,
      ((3 * k, 3 * k + 1, 3 * k + 2) : Nat × Nat × Nat) ∈ triangleTriples g) :
    T ≤ triangleCount g := by
  have hinj : Set.InjOn (fun k : Nat => ((3 * k, 3 * k + 1, 3 * k + 2) : Nat × Nat × Nat))
      ↑(Finset.range T) := by
    intro a _ b _ heq
    simp only [Prod.mk.injEq] at heq
    omega
  calc T = (Finset.range T).card := (Finset.card_range _).symm
    _ ≤ (triangleTriples g).card := Finset.card_le_card_of_injOn _ hmaps hinj
    _ = triangleCount g := rfl

theorem bigGraph_count_ge : 4294967296 ≤ triangleCount bigGraph := by
  apply triples_card_lower bigGraph 4294967296
  intro k hk
  rw [Finset.mem_range] at hk
  simp only [triangleTriples, Finset.mem_filter, Finset.mem_product, Finset.mem_range,
    bigGraph_numNodes, Adj]
  refine ⟨⟨by omega, by omega, by omega⟩, by omega, by omega, ?_, ?_, ?_⟩
  · rw [bigGraph_nodeSlice (show 3 * k < 3 * 4294967296 by omega),
      mem_tripleNbrs (show 3 * k < 3 * 4294967296 by omega)]
    omega
  · rw [bigGraph_nodeSlice (show 3 * k < 3 * 4294967296 by omega),
      mem_tripleNbrs (show 3 * k < 3 * 4294967296 by omega)]
    omega
  · rw [bigGraph_nodeSlice (show 3 * k + 1 < 3 * 4294967296 by omega),
      mem_tripleNbrs (show 3 * k + 1 < 3 * 4294967296 by omega)]
    omega

/-- The counter value read back on any well-formed graph and covering grid:
the exact count modulo `2^32`. -/
theorem counterFinal_eq (g : CSR) (h : WF g) {grid : Nat} (hg : numNodes g ≤ grid) :
    counterFinal g grid = some (triangleCount g % 4294967296) := by
  rw [counterFinal, sumTasks_eq_triangleCount g h hg]
  rfl

/-! ### Correctness of the binary-search helper -/

theorem sliceFrom_sorted_index {g : CSR} {lo hi : Nat} (hh : hi ≤ g.edgeList.length)
    (hs : List.Sorted (· < ·) (sliceFrom g lo hi)) {i j x y : Nat}
    (hli : lo ≤ i) (hij : i < j) (hjh : j < hi)
    (hx : readEdge g i = some x) (hy : readEdge g j = some y) : x < y := by
  have hsl1 : (sliceFrom g lo hi)[i - lo]? = some x := by
    rw [sliceFrom_getElem?, if_pos (by omega)]
    have hplus : lo + (i - lo) = i := by omega
    rw [hplus]
    exact hx
  have hsl2 : (sliceFrom g lo hi)[j - lo]? = some y := by
    rw [sliceFrom_getElem?, if_pos (by omega)]
    have hplus : lo + (j - lo) = j := by omega
    rw [hplus]
    exact hy
  rcases List.getElem?_eq_some.mp hsl1 with ⟨hl1, he1⟩
  rcases List.getElem?_eq_some.mp hsl2 with ⟨hl2, he2⟩
  have hpair := List.pairwise_iff_get.mp hs ⟨i - lo, hl1⟩ ⟨j - lo, hl2⟩
    (Fin.mk_lt_mk.mpr (by omega))
  rw [List.get_eq_getElem, List.get_eq_getElem, he1, he2] at hpair
  exact hpair

theorem isNeighborLoop_eq (g : CSR) {lo hi : Nat} (searchValue : Nat)
    (hh : hi ≤ g.edgeList.length)
    (hs : List.Sorted (· < ·) (sliceFrom g lo hi)) :
    ∀ fuel s e, lo ≤ s → e ≤ hi → e - s ≤ fuel →
      ∃ b, isNeighborLoop g searchValue fuel s e = some b ∧
        (b = true ↔ ∃ i, s ≤ i ∧ i < e ∧ readEdge g i = some searchValue) := by
  intro fuel
  induction fuel with
  | zero =>
    intro s e hls heh hf
    refine ⟨false, ?_, ?_⟩
    · rw [isNeighborLoop, if_neg (by omega)]
    · simp only [Bool.false_eq_true, false_iff]
      rintro ⟨i, h1, h2, _⟩
      omega
  | succ fuel ih =>
    intro s e hls heh hf
    by_cases hlive : s < e
    · have hmlt : s + (e - s) / 2 < e := by omega
      have hmlen : s + (e - s) / 2 < g.edgeList.length := by omega
      have hread : readEdge g (s + (e - s) / 2) =
          some (g.edgeList.getD (s + (e - s) / 2) 0) := by
        rw [readEdge, List.getElem?_eq_getElem hmlen, List.getD_eq_getElem _ 0 hmlen]
      by_cases heq : g.edgeList.getD (s + (e - s) / 2) 0 = searchValue
      · refine ⟨true, ?_, ?_⟩
        · simp only [isNeighborLoop, if_pos hlive, hread, if_pos heq]
        · simp only [true_iff]
          exact ⟨s + (e - s) / 2, by omega, hmlt, by rw [hread, heq]⟩
      · by_cases hlt : g.edgeList.getD (s + (e - s) / 2) 0 < searchValue
        · obtain ⟨b, hb, hiff⟩ := ih (s + (e - s) / 2 + 1) e (by omega) heh (by omega)
          refine ⟨b, ?_, ?_⟩
          · simp only [isNeighborLoop, if_pos hlive, hread, if_neg heq, if_pos hlt]
            exact hb
          · rw [hiff]
            constructor
            · rintro ⟨i, h1, h2, h3⟩
              exact ⟨i, by omega, h2, h3⟩
            · rintro ⟨i, h1, h2, h3⟩
              refine ⟨i, ?_, h2, h3⟩
              by_contra hc
              push_neg at hc
              rcases Nat.lt_or_ge i (s + (e - s) / 2) with hi2 | hi2
              · have hord := sliceFrom_sorted_index hh hs (by omega) hi2 (by omega) h3 hread
                omega
              · have hieq : i = s + (e - s) / 2 := by omega
                rw [hieq, hread] at h3
                rw [Option.some.injEq] at h3
                exact heq h3
        · obtain ⟨b, hb, hiff⟩ := ih s (s + (e - s) / 2) hls (by omega) (by omega)
          refine ⟨b, ?_, ?_⟩
          · simp only [isNeighborLoop, if_pos hlive, hread, if_neg heq, if_neg hlt]
            exact hb
          · rw [hiff]
            constructor
            · rintro ⟨i, h1, h2, h3⟩
              exact ⟨i, h1, by omega, h3⟩
            · rintro ⟨i, h1, h2, h3⟩
              refine ⟨i, h1, ?_, h3⟩
              by_contra hc
              push_neg at hc
              rcases Nat.eq_or_lt_of_le hc with hieq | hlt2
              · rw [← hieq, hread] at h3
                rw [Option.some.injEq] at h3
                exact heq h3
              · have hord := sliceFrom_sorted_index hh hs (by omega) hlt2 (by omega) hread h3
                omega
    · refine ⟨false, ?_, ?_⟩
      · rw [isNeighborLoop, if_neg hlive]
      · simp only [Bool.false_eq_true, false_iff]
        rintro ⟨i, h1, h2, _⟩
        omega

/-- The binary-search helper terminates with a definite answer (no
out-of-bounds access) and answers membership in the node's sub-list
exactly, whenever that sub-list is strictly increasing. -/
theorem isNeighbor_eq (g : CSR) {node : Nat} (searchValue : Nat)
    (h1 : node + 1 < g.rowPtr.length)
    (h2 : rp g (node + 1) ≤ g.edgeList.length)
    (hs : List.Sorted (· < ·) (nodeSlice g node)) :
    ∃ b, isNeighbor g node searchValue = some b ∧
      (b = true ↔ searchValue ∈ nodeSlice g node) := by
  simp only [nodeSlice] at hs
  obtain ⟨b, hb, hiff⟩ := isNeighborLoop_eq g searchValue h2 hs
    (rp g (node + 1) - rp g node) (rp g node) (rp g (node + 1))
    (le_refl _) (le_refl _) (le_refl _)
  refine ⟨b, ?_, ?_⟩
  · simp only [isNeighbor, readRow_eq g (show node < g.rowPtr.length by omega),
      readRow_eq g h1]
    exact hb
  · rw [hiff, nodeSlice]
    exact mem_sliceFrom.symm

/-! ### The claims -/

/-- Claim C1 (amended): for every CSR Graph satisfying the §3 invariants and
every covering grid, the final value of the shared 32-bit counter equals the
exact number of unordered vertex triples with all three pairwise edges
present — provided that exact number fits in 32 bits (the counter is an
`atomic<u32>` and in general holds the count modulo `2^32`).  Moreover each
triangle is contributed exactly once, by the task of its least vertex `a`,
which finds exactly the pairs `(b, c)` with `a < b < c` completing a
triangle. -/
theorem claim_C1 (g : CSR) (h : WF g) (grid : Nat) (hgrid : numNodes g ≤ grid)
    (hfit : triangleCount g < 4294967296) :
    counterFinal g grid = some (triangleCount g) ∧
    ∀ u, u < numNodes g → taskCount g u = some ((trianglePairs g u).card) := by
  constructor
  · rw [counterFinal_eq g h hgrid, Nat.mod_eq_of_lt hfit]
  · exact fun u hu => taskCount_eq_card g h hu

/-- Witness for C1 at the single-triangle graph with grid 3. -/
theorem claim_C1_witness :
    WF (buildCSR triRecords) ∧ numNodes (buildCSR triRecords) ≤ 3 ∧
    triangleCount (buildCSR triRecords) < 4294967296 ∧
    (counterFinal (buildCSR triRecords) 3 = some (triangleCount (buildCSR triRecords)) ∧
     ∀ u, u < numNodes (buildCSR triRecords) →
       taskCount (buildCSR triRecords) u =
         some ((trianglePairs (buildCSR triRecords) u).card)) :=
  ⟨buildCSR_WF triRecords, by decide, by decide,
    claim_C1 (buildCSR triRecords) (buildCSR_WF triRecords) 3 (by decide) (by decide)⟩

/-- Counterexample to C1 as stated: `bigGraph` satisfies every §3 invariant
but holds `2^32` triangles, so the 32-bit counter wraps and its final value
is not the exact triple count. -/
theorem claim_C1_counterexample :
    WF bigGraph ∧
    counterFinal bigGraph (numNodes bigGraph) ≠ some (triangleCount bigGraph) := by
  refine ⟨bigGraph_WF, ?_⟩
  rw [counterFinal_eq bigGraph bigGraph_WF (le_refl _)]
  intro hc
  rw [Option.some.injEq] at hc
  have hge := bigGraph_count_ge
  have hmod : triangleCount bigGraph % 4294967296 < 4294967296 :=
    Nat.mod_lt _ (by omega)
  omega

/-- Claim C2: for every input record collection, the CSR Builder's output
satisfies the §3 invariants: `rowPtr` has one entry per distinct node plus
one, is monotonically non-decreasing, ends with the length of `edgeList`,
and every node's slice is strictly increasing (hence duplicate-free) with
no occurrence of the node itself — the rank-based remapping of the
external-id-sorted neighbour sets preserves strict ascent. -/
theorem claim_C2 (recs : List Record) (i : Nat) (hi : i < numNodes (buildCSR recs)) :
    (buildCSR recs).rowPtr.length = (sortedNodeIds recs).length + 1 ∧
    List.Sorted (· ≤ ·) (buildCSR recs).rowPtr ∧
    rp (buildCSR recs) (numNodes (buildCSR recs)) = (buildCSR recs).edgeList.length ∧
    List.Sorted (· < ·) (nodeSlice (buildCSR recs) i) ∧
    i ∉ nodeSlice (buildCSR recs) i := by
  have h := buildCSR_WF recs
  refine ⟨?_, h.mono, h.lastEq, h.sorted i hi, h.noSelf i hi⟩
  simp [buildCSR, mkCSR, rowOffsets_length]

/-- Witness for C2 at the single-triangle input, node 0. -/
theorem claim_C2_witness :
    0 < numNodes (buildCSR triRecords) ∧
    ((buildCSR triRecords).rowPtr.length = (sortedNodeIds triRecords).length + 1 ∧
     List.Sorted (· ≤ ·) (buildCSR triRecords).rowPtr ∧
     rp (buildCSR triRecords) (numNodes (buildCSR triRecords)) =
       (buildCSR triRecords).edgeList.length ∧
     List.Sorted (· < ·) (nodeSlice (buildCSR triRecords) 0) ∧
     0 ∉ nodeSlice (buildCSR triRecords) 0) :=
  ⟨by decide, claim_C2 triRecords 0 (by decide)⟩

/-- Claim C3: in every built CSR Graph, recorded edges are symmetric and no
node occurs in its own neighbour sub-list. -/
theorem claim_C3 (recs : List Record) (u v : Nat)
    (hu : u < numNodes (buildCSR recs)) (hv : v < numNodes (buildCSR recs)) :
    (Adj (buildCSR recs) u v ↔ Adj (buildCSR recs) v u) ∧
    ¬Adj (buildCSR recs) u u := by
  have h := buildCSR_WF recs
  exact ⟨⟨h.symm u hu v hv, h.symm v hv u hu⟩, h.noSelf u hu⟩

/-- Witness for C3 at the single-triangle input, nodes 0 and 1. -/
theorem claim_C3_witness :
    0 < numNodes (buildCSR triRecords) ∧ 1 < numNodes (buildCSR triRecords) ∧
    ((Adj (buildCSR triRecords) 0 1 ↔ Adj (buildCSR triRecords) 1 0) ∧
     ¬Adj (buildCSR triRecords) 0 0) :=
  ⟨by decide, by decide, claim_C3 triRecords 0 1 (by decide) (by decide)⟩

/-- Claim C4: on any CSR Graph, every task with index at least `numNodes`
returns `some 0` — it reads nothing and adds nothing — so any grid at least
`numNodes` (in particular any round-up to a multiple of the batch size)
produces the same result as the exact grid, any two covering grids agree,
and a zero-node graph yields count 0. -/
theorem claim_C4 (g : CSR) (grid grid' : Nat)
    (hgrid : numNodes g ≤ grid) (hgrid' : numNodes g ≤ grid') :
    (∀ u, numNodes g ≤ u → taskCount g u = some 0) ∧
    sumTasks g grid = sumTasks g (numNodes g) ∧
    sumTasks g grid' = sumTasks g grid ∧
    (numNodes g = 0 → counterFinal g grid = some 0) := by
  refine ⟨fun u hu => taskCount_oob g hu, sumTasks_extend g grid hgrid, ?_, ?_⟩
  · rw [sumTasks_extend g grid' hgrid', sumTasks_extend g grid hgrid]
  · intro h0
    rw [counterFinal, sumTasks_extend g grid hgrid, h0]
    rfl

/-- Witness for C4 at the K4 graph with the real dispatch grid 256 and an
alternative grid 512. -/
theorem claim_C4_witness :
    numNodes (buildCSR k4Records) ≤ 256 ∧ numNodes (buildCSR k4Records) ≤ 512 ∧
    ((∀ u, numNodes (buildCSR k4Records) ≤ u → taskCount (buildCSR k4Records) u = some 0) ∧
     sumTasks (buildCSR k4Records) 256 = sumTasks (buildCSR k4Records) (numNodes (buildCSR k4Records)) ∧
     sumTasks (buildCSR k4Records) 512 = sumTasks (buildCSR k4Records) 256 ∧
     (numNodes (buildCSR k4Records) = 0 → counterFinal (buildCSR k4Records) 256 = some 0)) :=
  ⟨by decide, by decide, claim_C4 (buildCSR k4Records) 256 512 (by decide) (by decide)⟩

set_option maxRecDepth 40000 in
/-- Claim C5: the concrete §8 test graphs: one triangle counts 1, K4 counts
4, two disjoint triangles count 2, and the path 0-1-2-3 counts 0 — running
the full pipeline (build CSR, dispatch `ceil(n/256)` workgroups of 256,
read the counter back). -/
theorem claim_C5 :
    runCount triRecords = some 1 ∧ runCount k4Records = some 4 ∧
    runCount twoTriRecords = some 2 ∧ runCount pathRecords = some 0 :=
  ⟨by decide, by decide, by decide, by decide⟩

/-- Claim C6: building from any permutation of the input records yields the
very same CSR Graph, hence the same final count. -/
theorem claim_C6 (r1 r2 : List Record) (h : r1.Perm r2) :
    buildCSR r2 = buildCSR r1 ∧ runCount r2 = runCount r1 := by
  have heq := buildCSR_eq_of_perm h.symm
  refine ⟨heq, ?_⟩
  rw [runCount, runCount, heq]

/-- Witness for C6: the single-triangle edges in two different orders. -/
theorem claim_C6_witness :
    triRecords.Perm [((some 0 : Option Int), (some 2 : Option Int)), (some 1, some 2), (some 0, some 1)] ∧
    (buildCSR [((some 0 : Option Int), (some 2 : Option Int)), (some 1, some 2), (some 0, some 1)] = buildCSR triRecords ∧
     runCount [((some 0 : Option Int), (some 2 : Option Int)), (some 1, some 2), (some 0, some 1)] = runCount triRecords) :=
  ⟨by decide, claim_C6 triRecords _ (by decide)⟩

/-- Claim C7: appending records that are self-loops or duplicates of
existing records never changes the final count: self-loops are dropped
before adjacency insertion and duplicates collapse in the per-node sets. -/
theorem claim_C7 (recs extra : List Record)
    (hex : ∀ r ∈ extra, (∃ a : Int, r = (some a, some a)) ∨ r ∈ recs) :
    runCount (recs ++ extra) = runCount recs := by
  rw [runCount_eq, runCount_eq, extTriangleCount, extTriangleCount, extTriples_extra hex]

/-- Witness for C7: add a self-loop on a fresh node and a duplicate edge to
the single triangle. -/
theorem claim_C7_witness :
    (∀ r ∈ [((some 5 : Option Int), (some 5 : Option Int)), (some 0, some 1)],
      (∃ a : Int, r = (some a, some a)) ∨ r ∈ triRecords) ∧
    runCount (triRecords ++ [(some 5, some 5), (some 0, some 1)]) = runCount triRecords := by
  have hex : ∀ r ∈ [((some 5 : Option Int), (some 5 : Option Int)), (some 0, some 1)],
      (∃ a : Int, r = (some a, some a)) ∨ r ∈ triRecords := by
    intro r hr
    rcases List.mem_cons.mp hr with rfl | hr2
    · exact Or.inl ⟨5, rfl⟩
    · rcases List.mem_cons.mp hr2 with rfl | hr3
      · exact Or.inr (by decide)
      · exact absurd hr3 (by simp)
  exact ⟨hex, claim_C7 triRecords _ hex⟩

/-- Claim C8: malformed records (a field that did not parse as an integer)
are skipped — building from the input equals building from only the
well-formed records — the result is always a valid CSR Graph, and the
empty input yields the zero-node graph with `rowPtr = [0]` and
`edgeList = []`. -/
theorem claim_C8 (recs : List Record) :
    buildCSR recs = buildCSR (recs.filter isValidRecord) ∧
    WF (buildCSR recs) ∧
    buildCSR ([] : List Record) = ⟨[0], []⟩ :=
  ⟨(buildCSR_congr (validRecs_filter recs)).symm, buildCSR_WF recs, by decide⟩

/-- Claim C9 (amended): the accumulator is a 32-bit `atomic<u32>` and the
system neither widens it nor fails on overflow: on every well-formed graph
the value read back is the exact triangle count reduced modulo `2^32`, so
counts of `2^32` or more wrap silently. -/
theorem claim_C9 (g : CSR) (h : WF g) (grid : Nat) (hgrid : numNodes g ≤ grid) :
    counterFinal g grid = some (triangleCount g % 4294967296) :=
  counterFinal_eq g h hgrid

/-- Witness for C9 at the K4 graph with grid 4. -/
theorem claim_C9_witness :
    WF (buildCSR k4Records) ∧ numNodes (buildCSR k4Records) ≤ 4 ∧
    counterFinal (buildCSR k4Records) 4 =
      some (triangleCount (buildCSR k4Records) % 4294967296) :=
  ⟨buildCSR_WF k4Records, by decide,
    claim_C9 (buildCSR k4Records) (buildCSR_WF k4Records) 4 (by decide)⟩

/-- Counterexample to C9 as stated: `bigGraph` is well formed with at least
`2^32` triangles, and the system reports the wrapped value — it does not
use a wider counter and does not fail loudly. -/
theorem claim_C9_counterexample :
    WF bigGraph ∧ 4294967295 < triangleCount bigGraph ∧
    counterFinal bigGraph (numNodes bigGraph) =
      some (triangleCount bigGraph % 4294967296) ∧
    triangleCount bigGraph % 4294967296 ≠ triangleCount bigGraph := by
  refine ⟨bigGraph_WF, by have := bigGraph_count_ge; omega,
    counterFinal_eq bigGraph bigGraph_WF (le_refl _), ?_⟩
  have hge := bigGraph_count_ge
  have hmod : triangleCount bigGraph % 4294967296 < 4294967296 :=
    Nat.mod_lt _ (by omega)
  omega

/-- Claim C10: whenever a node's neighbour sub-list is strictly increasing
(and its row-pointer window is in bounds), `is_neighbor` terminates with a
definite boolean, never reads out of bounds, and returns `true` exactly
when the searched value occurs in the sub-list. -/
theorem claim_C10 (g : CSR) (node searchValue : Nat)
    (h1 : node + 1 < g.rowPtr.length)
    (h2 : rp g (node + 1) ≤ g.edgeList.length)
    (hs : List.Sorted (· < ·) (nodeSlice g node)) :
    ∃ b, isNeighbor g node searchValue = some b ∧
      (b = true ↔ searchValue ∈ nodeSlice g node) :=
  isNeighbor_eq g searchValue h1 h2 hs

/-- Witness for C10 at the K4 graph, node 1, searching for 2. -/
theorem claim_C10_witness :
    1 + 1 < (buildCSR k4Records).rowPtr.length ∧
    rp (buildCSR k4Records) (1 + 1) ≤ (buildCSR k4Records).edgeList.length ∧
    List.Sorted (· < ·) (nodeSlice (buildCSR k4Records) 1) ∧
    ∃ b, isNeighbor (buildCSR k4Records) 1 2 = some b ∧
      (b = true ↔ 2 ∈ nodeSlice (buildCSR k4Records) 1) :=
  ⟨by decide, by decide, by decide,
    claim_C10 (buildCSR k4Records) 1 2 (by decide) (by decide) (by decide)⟩
